import Mathlib

/-!
Verification development for the english-learning-backend repository.

This file gives a shallow embedding of the core algorithmic components of the
repository (the text segmenter, the audio segment planner, and the
paragraph-segment matcher of `document.service.ts` / `audio-processing.service.ts`)
and proves the specification's testable properties about them.

Modelling conventions:
* JavaScript numbers that hold times and durations are modelled as exact
  rationals (`ℚ`).  For the count ratios compared against the literals 0.2/0.3
  this is faithful: for any realistic list lengths the double-precision value
  of `|P-S|/max(P,S)` lies on the same side of the doubles `0.2`/`0.3` as the
  exact rational does.
* JavaScript strings are modelled as `List Char`.
* Side-effecting adapter calls (`extractAudioSegment`, `generateSpeech`) are
  modelled by oracles: a function `ok : ℕ → Bool` (resp.
  `synth : ℕ → Except String SpeechResult`) saying whether the i-th call
  succeeds.  The `try/catch` blocks of the source make the surrounding batch
  total, which the embedding reflects by returning plain lists.
* Randomly generated uuids and the URL strings returned by the storage adapter
  carry no logic, so records keep only the fields the programme computes
  (times, durations, order numbers).
-/

/-- A time range of the audio track, as produced by the planner
(`AudioSegment` in `audio-processing.service.ts`). -/
structure AudioSegment where
  startTime : ℚ
  endTime : ℚ
  duration : ℚ
  deriving DecidableEq, Repr

instance : Inhabited AudioSegment := ⟨⟨0, 0, 0⟩⟩

/-- Result record of `getAudioInfo` (duration estimate plus fixed metadata). -/
structure AudioInfo where
  duration : ℚ
  format : String
  sampleRate : ℕ
  channels : ℕ
  deriving DecidableEq, Repr

/-- One produced pairing, i.e. one entry pushed onto `processedAudioSegments`
(an `AudioSegmentDto` of the source, with the uuid and URL strings - which are
opaque adapter data - omitted).  `order` is the 1-based paragraph number the
pairing is attached to. -/
structure AudioSegmentDto where
  startTime : ℚ
  endTime : ℚ
  duration : ℚ
  order : ℕ
  deriving DecidableEq, Repr

/-- Result of `matchParagraphsWithAudioSegments`: the produced pairings and the
manual-adjustment flag. -/
structure MatchResult where
  audioSegments : List AudioSegmentDto
  needsManualAdjustment : Bool
  deriving DecidableEq, Repr

/-- Natural-number ceiling division: `cdiv a b = ⌈a / b⌉`.  This is what
`Math.ceil(a / b)` computes for the (small) natural list lengths of the
matcher; for `b = 0` the matcher never reaches the value (loops are empty). -/
def cdiv (a b : ℕ) : ℕ := (a + b - 1) / b

/-- `segmentByTextParagraphs` of `audio-processing.service.ts` (the audio file
path argument is unused by the computation and omitted): split a total
duration into `paragraphCount` equal consecutive ranges of length
`segmentDuration = totalDuration / paragraphCount` (inlined below), the end of
each clipped to the total duration. -/
def segmentByTextParagraphs (paragraphCount : ℕ) (totalDuration : ℚ) :
    List AudioSegment :=
  (List.range paragraphCount).map fun (i : ℕ) =>
    { startTime := (i : ℚ) * (totalDuration / paragraphCount)
      endTime := min ((i : ℚ) * (totalDuration / paragraphCount)
          + totalDuration / paragraphCount) totalDuration
      duration := min ((i : ℚ) * (totalDuration / paragraphCount)
          + totalDuration / paragraphCount) totalDuration
          - (i : ℚ) * (totalDuration / paragraphCount) }

/-- `getAudioInfo` of `audio-processing.service.ts`: a stub that estimates the
duration from the file size at an assumed 128 kbps, with a floor of 10
seconds. -/
def getAudioInfo (fileSizeInBytes : ℕ) : AudioInfo :=
  { duration := max ((fileSizeInBytes * 8 : ℚ) / (128 * 1000)) 10
    format := "mp3"
    sampleRate := 44100
    channels := 2 }

/-- The per-segment record built by `generateSegmentAudios` (uuid and URL
strings, being opaque adapter data, are omitted). -/
structure SegmentAudioResult where
  segment : AudioSegment
  deriving DecidableEq, Repr

/-- `generateSegmentAudios` of `audio-processing.service.ts`: walk the segment
list with a running index; the i-th `extractAudioSegment` call succeeds iff
`ok i`; a failure is caught and recorded as `none` (the source comments: "push
null to keep the index correspondence"), and the loop continues. -/
def generateSegmentAudios (ok : ℕ → Bool) :
    List AudioSegment → ℕ → List (Option SegmentAudioResult)
  | [], _ => []
  | s :: rest, i =>
      (if ok i then some ⟨s⟩ else none) :: generateSegmentAudios ok rest (i + 1)

/-- The matcher's count-mismatch ratio `|P - S| / max(P, S)`. -/
def mismatchQ (P S : ℕ) : ℚ := |(P : ℚ) - (S : ℚ)| / max (P : ℚ) (S : ℚ)

/-- The pairing pushed by `oneToOneMatch` for index `i`:
paragraph `i` (order `i+1`) receives segment `s`. -/
def oneToOnePairing (i : ℕ) (s : AudioSegment) : AudioSegmentDto :=
  { startTime := s.startTime, endTime := s.endTime, duration := s.duration
    order := i + 1 }

/-- The collection loop of `oneToOneMatch`: walk the results of
`generateSegmentAudios` with a running index, pushing a pairing for each
non-null result and skipping (with a warning log) each null one. -/
def collectPairings : List (Option SegmentAudioResult) → ℕ → List AudioSegmentDto
  | [], _ => []
  | some r :: rest, i => oneToOnePairing i r.segment :: collectPairings rest (i + 1)
  | none :: rest, i => collectPairings rest (i + 1)

/-- `oneToOneMatch` of `document.service.ts`: extract the first
`min(P, S)` segments and pair the i-th surviving one with paragraph `i`. -/
def oneToOneMatch (ok : ℕ → Bool) (P : ℕ) (segs : List AudioSegment) :
    List AudioSegmentDto :=
  let minLength := min P segs.length
  collectPairings (generateSegmentAudios ok (segs.take minLength) 0) 0

/-- `mergeAudioSegments` of `document.service.ts`: with
`k = ceil(S / P)` segments per paragraph, paragraph `i` receives the merged
range of the contiguous segment group `segs[i*k ..< min(i*k+k, S)]`; an empty
group produces nothing, and an extraction failure (`ok i = false`) is caught
and skipped. -/
def mergeAudioSegments (ok : ℕ → Bool) (P : ℕ) (segs : List AudioSegment) :
    List AudioSegmentDto :=
  let k := cdiv segs.length P
  (List.range P).filterMap fun i =>
    match (segs.drop (i * k)).take k with
    | [] => none
    | g :: gs =>
        if ok i then
          some { startTime := g.startTime
                 endTime := (gs.getLastD g).endTime
                 duration := (gs.getLastD g).endTime - g.startTime
                 order := i + 1 }
        else none

/-- The inner loop of `splitAudioSegments` for segment number `j`: its
paragraph group is `[j*k ..< min(j*k+k, P))` (size `g`), and the group's
sub-ranges are laid back-to-back from `seg.startTime` with length
`seg.duration / g`, each end clipped to `seg.endTime`.  (For `g = 0` the loop
body never runs, so the `duration / 0` value - `Infinity` in JavaScript, `0`
in `ℚ` - is never observable.)  `ok p` tells whether the extraction for
paragraph `p` succeeds; a failure is caught and skipped. -/
def splitSubsegments (ok : ℕ → Bool) (P k : ℕ) (seg : AudioSegment) (j : ℕ) :
    List AudioSegmentDto :=
  let g := min (j * k + k) P - j * k
  let subDuration := seg.duration / (g : ℚ)
  (List.range g).filterMap fun (t : ℕ) =>
    let subStart := seg.startTime + (t : ℚ) * subDuration
    let subEnd := min (subStart + subDuration) seg.endTime
    if ok (j * k + t) then
      some { startTime := subStart, endTime := subEnd
             duration := subEnd - subStart, order := j * k + t + 1 }
    else none

/-- The outer loop of `splitAudioSegments`, walking the segments with their
index `j`. -/
def splitLoop (ok : ℕ → Bool) (P k : ℕ) :
    List AudioSegment → ℕ → List AudioSegmentDto
  | [], _ => []
  | seg :: rest, j => splitSubsegments ok P k seg j ++ splitLoop ok P k rest (j + 1)

/-- `splitAudioSegments` of `document.service.ts`: with
`k = ceil(P / S)` paragraphs per segment, each segment's range is subdivided
evenly over its paragraph group. -/
def splitAudioSegments (ok : ℕ → Bool) (P : ℕ) (segs : List AudioSegment) :
    List AudioSegmentDto :=
  splitLoop ok P (cdiv P segs.length) segs 0

/-- `matchParagraphsWithAudioSegments` of `document.service.ts`.  The
paragraph list enters the computation only through its length `P` and the
per-paragraph audio updates (mirrored by the `order` fields of the produced
pairings), so the embedding takes the count directly.  Strategy dispatch: the
one-to-one strategy for ratio ≤ 0.2, otherwise merge (S > P) or split
(S ≤ P); the manual-adjustment flag is `ratio > 0.3`. -/
def matchParagraphsWithAudioSegments (ok : ℕ → Bool) (P : ℕ)
    (segs : List AudioSegment) : MatchResult :=
  let mq := mismatchQ P segs.length
  { audioSegments :=
      if mq ≤ 1 / 5 then oneToOneMatch ok P segs
      else if P < segs.length then mergeAudioSegments ok P segs
      else splitAudioSegments ok P segs
    needsManualAdjustment := decide (3 / 10 < mq) }

/-- The always-succeeding adapter oracle. -/
def okAll : ℕ → Bool := fun _ => true

/-- Size of the paragraph group that `splitAudioSegments` assigns to segment
number `j`: the group is `[j*k ..< min(j*k+k, P))`. -/
def groupSize (P k j : ℕ) : ℕ := min (j * k + k) P - j * k

/-- The sub-range pairing produced by `splitAudioSegments` for position `t`
inside segment number `j`'s paragraph group (so for paragraph `j*k + t`). -/
def subPairing (P k : ℕ) (seg : AudioSegment) (j t : ℕ) : AudioSegmentDto :=
  let sd := seg.duration / ((groupSize P k j : ℕ) : ℚ)
  let s := seg.startTime + (t : ℚ) * sd
  let e := min (s + sd) seg.endTime
  { startTime := s, endTime := e, duration := e - s, order := j * k + t + 1 }

/-- Concrete segments `[0,3), [3,6), [6,9), [9,12)` used to refute claim C1:
3 paragraphs against these 4 segments give ratio 1/4 > 0.2, yet the merge
strategy produces only 2 pairings (paragraph 3's group is empty). -/
def counterexampleSegs4 : List AudioSegment :=
  [⟨0, 3, 3⟩, ⟨3, 6, 3⟩, ⟨6, 9, 3⟩, ⟨9, 12, 3⟩]

/-- Concrete well-formed segments used by the witness of claim C2. -/
def witnessSegs2 : List AudioSegment := [⟨0, 6, 6⟩, ⟨6, 12, 6⟩]

/-- Concrete segments used by the witness of claim C3. -/
def witnessSegs3 : List AudioSegment := [⟨0, 2, 2⟩, ⟨2, 5, 3⟩, ⟨5, 9, 4⟩]

/-- Thirteen concrete unit segments (for the spec's dead-zone scenario
P = 10, S = 13). -/
def witnessSegs13 : List AudioSegment :=
  (List.range 13).map fun (i : ℕ) => ⟨(i : ℚ), (i : ℚ) + 1, 1⟩

/-- Result of a successful `speechService.generateSpeech` call (binary data
and storage handled by the adapter; the fields the document service reads). -/
structure SpeechResult where
  audioUrl : String
  fileName : String
  duration : ℚ
  deriving DecidableEq, Repr

/-- The audio-reference fields of a `Paragraph` row (all null after parsing,
populated by `generateAudioForParagraphs`). -/
structure ParagraphRecord where
  audioUrl : Option String
  audioFileName : Option String
  audioDuration : Option ℚ
  deriving DecidableEq, Repr

/-- `generateAudioForParagraphs` of `document.service.ts`: walk the paragraph
list in order; the i-th `generateSpeech` call either returns a result
(`synth i = .ok r`, and the paragraph's audio fields are updated) or throws
(`synth i = .error e`, the error is caught and logged, the paragraph is left
untouched, and the loop continues).  The embedding is a total function: no
exception escapes the batch. -/
def generateAudioForParagraphs (synth : ℕ → Except String SpeechResult) :
    List ParagraphRecord → ℕ → List ParagraphRecord
  | [], _ => []
  | p :: rest, i =>
      (match synth i with
       | Except.ok r =>
           { audioUrl := some r.audioUrl, audioFileName := some r.fileName
             audioDuration := some r.duration }
       | Except.error _ => p) :: generateAudioForParagraphs synth rest (i + 1)

/-- Five freshly parsed paragraphs (null audio fields). -/
def witnessParas5 : List ParagraphRecord := List.replicate 5 ⟨none, none, none⟩

/-- A synthesis oracle that fails exactly on paragraph index 2. -/
def witnessSynth : ℕ → Except String SpeechResult :=
  fun i => if i = 2 then Except.error "boom" else Except.ok ⟨"url", "file", 1⟩

/-- ASCII whitespace in the sense of the JavaScript regex class `\s` and of
`String.prototype.trim` (the exotic Unicode space code points, which every
function here treats uniformly, are outside the embedding's alphabet). -/
def isWS (c : Char) : Bool :=
  c == ' ' || c == '\t' || c == '\n' || c == '\r' ||
    c == Char.ofNat 11 || c == Char.ofNat 12

/-- The character class `[ \t]` of `cleanText`'s third replacement. -/
def isSpTab (c : Char) : Bool := c == ' ' || c == '\t'

/-- `text.replace(/\r\n/g, '\n')`: left-to-right, non-overlapping
replacement, exactly as the JavaScript global regex replace scans. -/
def replaceCRLF : List Char → List Char
  | [] => []
  | [c] => [c]
  | c₁ :: c₂ :: t =>
      if c₁ = '\r' ∧ c₂ = '\n' then '\n' :: replaceCRLF t
      else c₁ :: replaceCRLF (c₂ :: t)

/-- `text.replace(/\n{3,}/g, '\n\n')`: on seeing three consecutive newlines,
emit exactly two and switch to run-skipping mode (`skip = true`), which
drops the rest of the maximal newline run; the greedy regex consumes the
whole run the same way. -/
def collapseNLGo : List Char → Bool → List Char
  | [], _ => []
  | c :: t, true =>
      if c = '\n' then collapseNLGo t true else c :: collapseNLGo t false
  | c₁ :: c₂ :: c₃ :: t₂, false =>
      if c₁ = '\n' ∧ c₂ = '\n' ∧ c₃ = '\n' then
        '\n' :: '\n' :: collapseNLGo t₂ true
      else c₁ :: collapseNLGo (c₂ :: c₃ :: t₂) false
  | l, false => l

/-- The newline-collapsing replacement, started in normal mode. -/
def collapseNL (l : List Char) : List Char := collapseNLGo l false

/-- `text.replace(/[ \t]+/g, ' ')`: the first space or tab of a maximal run
emits a single `' '` and switches to run-skipping mode (`inRun = true`). -/
def collapseSpacesGo : List Char → Bool → List Char
  | [], _ => []
  | c :: t, inRun =>
      if isSpTab c then
        if inRun then collapseSpacesGo t true
        else ' ' :: collapseSpacesGo t true
      else c :: collapseSpacesGo t false

/-- The space/tab-collapsing replacement, started in normal mode. -/
def collapseSpaces (l : List Char) : List Char := collapseSpacesGo l false

/-- Drop leading JavaScript whitespace (the first half of `trim()`). -/
def trimLeft (l : List Char) : List Char := l.dropWhile isWS

/-- Drop trailing JavaScript whitespace (the second half of `trim()`). -/
def trimRight : List Char → List Char
  | [] => []
  | c :: t => if trimRight t = [] ∧ isWS c then [] else c :: trimRight t

/-- `String.prototype.trim`. -/
def trim (l : List Char) : List Char := trimRight (trimLeft l)

/-- `cleanText` of `document.service.ts`: normalize line endings, collapse
3+ newlines to a paragraph break, collapse space/tab runs, trim. -/
def cleanText (text : List Char) : List Char :=
  trim (collapseSpaces (collapseNL (replaceCRLF text)))

/-- Scanner: does the text contain the two-character window `\r\n`? -/
def hasCRLF : List Char → Bool
  | c₁ :: c₂ :: t =>
      if c₁ = '\r' ∧ c₂ = '\n' then true else hasCRLF (c₂ :: t)
  | _ => false

/-- Scanner: does the text contain the three-character window `\r\r\n`?
(The one pattern on which a single `replace(/\r\n/g, '\n')` pass leaves a
fresh `\r\n` behind.) -/
def hasCRCRLF : List Char → Bool
  | c₁ :: c₂ :: c₃ :: t =>
      if c₁ = '\r' ∧ c₂ = '\r' ∧ c₃ = '\n' then true
      else hasCRCRLF (c₂ :: c₃ :: t)
  | _ => false

/-- Scanner: does the text contain three consecutive newlines? -/
def hasNL3 : List Char → Bool
  | c₁ :: c₂ :: c₃ :: t =>
      if c₁ = '\n' ∧ c₂ = '\n' ∧ c₃ = '\n' then true
      else hasNL3 (c₂ :: c₃ :: t)
  | _ => false

/-- Scanner: does the text contain two adjacent space-or-tab characters? -/
def hasDblSpTab : List Char → Bool
  | c₁ :: c₂ :: t =>
      if isSpTab c₁ ∧ isSpTab c₂ then true else hasDblSpTab (c₂ :: t)
  | _ => false

/-- A character counted by `countWords`' filter `/[a-zA-Z]/`. -/
def isLatinLetter (c : Char) : Bool :=
  decide (('a' ≤ c ∧ c ≤ 'z') ∨ ('A' ≤ c ∧ c ≤ 'Z'))

/-- The maximal non-whitespace runs of a text - what `split(/\s+/)` yields
after the empty artefacts are filtered out.  `w` accumulates the current
word, reversed; an empty `w` means no word is open. -/
def wordsGo : List Char → List Char → List (List Char)
  | [], w => if w = [] then [] else [w.reverse]
  | c :: t, w =>
      if isWS c then
        if w = [] then wordsGo t [] else w.reverse :: wordsGo t []
      else wordsGo t (c :: w)

/-- The non-whitespace tokens of a text. -/
def words (l : List Char) : List (List Char) := wordsGo l []

/-- `countWords` of `document.service.ts`: split on whitespace, count the
tokens containing at least one Latin letter. -/
def countWords (text : List Char) : ℕ :=
  ((words text).filter (fun w => w.any isLatinLetter)).length

/-- The splitting pass of `splitIntoParagraphs`:
`text.split(/\n\s*\n/)`.  The scan keeps the current piece in `acc`
(reversed) and runs in three modes: `0` - normal; `1` - a `\n` was seen and
`buf` holds it plus the following non-`\n` whitespace (if no second `\n`
arrives before the whitespace run ends, `buf` belongs to the piece); `2` - a
separator match is confirmed and being extended greedily to the last `\n` of
the whitespace run, with `acc` holding the whitespace seen since that last
`\n` (it belongs to the next piece unless a further `\n` arrives). -/
def splitParasGo : List Char → List Char → List Char → ℕ → List (List Char)
  | [], acc, buf, mode =>
      if mode = 1 then [(buf ++ acc).reverse] else [acc.reverse]
  | c :: t, acc, buf, mode =>
      if mode = 0 then
        if c = '\n' then splitParasGo t acc ['\n'] 1
        else splitParasGo t (c :: acc) [] 0
      else if mode = 1 then
        if c = '\n' then acc.reverse :: splitParasGo t [] [] 2
        else if isWS c then splitParasGo t acc (c :: buf) 1
        else splitParasGo t (c :: (buf ++ acc)) [] 0
      else
        if c = '\n' then splitParasGo t [] [] 2
        else if isWS c then splitParasGo t (c :: acc) [] 2
        else splitParasGo t (c :: acc) [] 0

/-- The splitting pass of `splitIntoSentences`:
`text.split(/(?<=[.!?])\s+(?=[A-Z])/)`.  A separator is a maximal
whitespace run whose preceding character is `.`, `!` or `?` and whose
following character is an uppercase Latin letter; mode `1` buffers a
candidate run in `buf`. -/
def sentencesGo : List Char → List Char → List Char → ℕ → List (List Char)
  | [], acc, buf, mode =>
      if mode = 1 then [(buf ++ acc).reverse] else [acc.reverse]
  | c :: t, acc, buf, mode =>
      if mode = 1 then
        if isWS c then sentencesGo t acc (c :: buf) 1
        else if 'A' ≤ c ∧ c ≤ 'Z' then acc.reverse :: sentencesGo t [c] [] 0
        else sentencesGo t (c :: (buf ++ acc)) [] 0
      else
        if isWS c ∧ (acc.head? = some '.' ∨ acc.head? = some '!' ∨
            acc.head? = some '?') then
          sentencesGo t acc [c] 1
        else sentencesGo t (c :: acc) [] 0

/-- `splitIntoSentences` of `document.service.ts`: split, trim each piece,
drop empty pieces. -/
def splitIntoSentences (text : List Char) : List (List Char) :=
  ((sentencesGo text [] [] 0).map trim).filter (fun s => s ≠ [])

/-- A paragraph record as built by `splitIntoParagraphs` (the generated uuid
carries no logic and is omitted). -/
structure ParsedParagraph where
  content : List Char
  order : ℕ
  wordCount : ℕ
  sentences : List (List Char)
  deriving DecidableEq, Repr

/-- `splitIntoParagraphs` of `document.service.ts`: split on blank lines,
trim each piece, drop empty pieces, and build the per-paragraph records with
1-based order numbers. -/
def splitIntoParagraphs (text : List Char) : List ParsedParagraph :=
  ((((splitParasGo text [] [] 0).map trim).filter (fun p => p ≠ [])).enum).map
    fun pr =>
      { content := pr.2, order := pr.1 + 1, wordCount := countWords pr.2
        sentences := splitIntoSentences pr.2 }

/-- The document record built by `parseDocumentContent` (uuid, title and
type carry no logic and are omitted). -/
structure ParsedDocument where
  content : List Char
  wordCount : ℕ
  sentenceCount : ℕ
  paragraphCount : ℕ
  paragraphs : List ParsedParagraph
  deriving DecidableEq, Repr

/-- `parseDocumentContent` of `document.service.ts`: clean the text, split
into paragraphs, count words over the whole cleaned content, and sum the
per-paragraph sentence counts with a fold (`paragraphs.reduce`). -/
def parseDocumentContent (content : List Char) : ParsedDocument :=
  let cleanContent := cleanText content
  let paragraphs := splitIntoParagraphs cleanContent
  { content := cleanContent
    wordCount := countWords cleanContent
    sentenceCount := paragraphs.foldl (fun count p => count + p.sentences.length) 0
    paragraphCount := paragraphs.length
    paragraphs := paragraphs }

-- ======================================================================
-- Theorems
-- ======================================================================

theorem cdiv_le_iff {a b : ℕ} (c : ℕ) (hb : 1 ≤ b) :
    cdiv a b ≤ c ↔ a ≤ c * b := by
  unfold cdiv
  rw [Nat.div_le_iff_le_mul_add_pred hb, Nat.mul_comm b c]
  omega

theorem lt_cdiv_iff {a b : ℕ} (i : ℕ) (hb : 1 ≤ b) :
    i < cdiv a b ↔ i * b < a := by
  have h := cdiv_le_iff (a := a) (b := b) i hb
  omega

theorem le_mul_cdiv {a b : ℕ} (hb : 1 ≤ b) : a ≤ b * cdiv a b := by
  have h := (cdiv_le_iff (a := a) (b := b) (cdiv a b) hb).mp (le_refl _)
  exact le_of_le_of_eq h (Nat.mul_comm _ _)

theorem one_le_cdiv {a b : ℕ} (ha : 1 ≤ a) (hb : 1 ≤ b) : 1 ≤ cdiv a b := by
  have h := cdiv_le_iff (a := a) (b := b) 0 hb
  omega

-- --- C5: the fixed-count audio planner ---

theorem segmentByTextParagraphs_getElem (N : ℕ) (D : ℚ) (i : ℕ) (hi : i < N) :
    (segmentByTextParagraphs N D)[i]? =
      some { startTime := (i : ℚ) * (D / N)
             endTime := min ((i : ℚ) * (D / N) + D / N) D
             duration := min ((i : ℚ) * (D / N) + D / N) D - (i : ℚ) * (D / N) } := by
  unfold segmentByTextParagraphs
  rw [List.getElem?_map, List.getElem?_range hi]
  rfl

theorem segmentByTextParagraphs_length (N : ℕ) (D : ℚ) :
    (segmentByTextParagraphs N D).length = N := by
  unfold segmentByTextParagraphs
  rw [List.length_map, List.length_range]

/-- Claim C5, counterexample: the planner does NOT return an empty sequence
for total duration `D = 0` and target count `N = 1`; it returns one
zero-width segment. -/
theorem claim5_planner_counterexample :
    segmentByTextParagraphs 1 0 = [⟨0, 0, 0⟩] ∧ segmentByTextParagraphs 1 0 ≠ [] := by
  have h : segmentByTextParagraphs 1 0 = [⟨0, 0, 0⟩] := by
    unfold segmentByTextParagraphs
    norm_num [List.range_succ]
  exact ⟨h, by rw [h]; exact fun hc => List.noConfusion hc⟩

/-- Claim C5 (amended): the fixed-count audio planner returns an empty
sequence when `N = 0` (for `D = 0` and `N ≥ 1` it instead returns `N`
zero-width segments, not an empty sequence); for all `D > 0` and `N ≥ 1` it
returns exactly `N` contiguous, non-overlapping segments whose union covers
exactly `[0, D]`, with the last segment ending at `D`, and for `D > 0`,
`N = 1` exactly one segment spanning the whole duration. -/
theorem claim5_planner (N : ℕ) (D : ℚ) :
    (N = 0 → segmentByTextParagraphs N D = []) ∧
    (0 < D → 1 ≤ N →
      (segmentByTextParagraphs N D).length = N ∧
      (∀ a : AudioSegment, (segmentByTextParagraphs N D)[0]? = some a →
        a.startTime = 0) ∧
      (∀ a : AudioSegment, (segmentByTextParagraphs N D)[N - 1]? = some a →
        a.endTime = D) ∧
      (∀ (i : ℕ) (a b : AudioSegment), (segmentByTextParagraphs N D)[i]? = some a →
        (segmentByTextParagraphs N D)[i + 1]? = some b →
        a.endTime = b.startTime) ∧
      (∀ (i : ℕ) (a : AudioSegment), (segmentByTextParagraphs N D)[i]? = some a →
        a.duration = a.endTime - a.startTime ∧ a.startTime ≤ a.endTime)) ∧
    (0 < D → N = 1 → segmentByTextParagraphs N D = [⟨0, D, D⟩]) := by
  have hlen := segmentByTextParagraphs_length N D
  refine ⟨?_, ?_, ?_⟩
  · intro h
    subst h
    unfold segmentByTextParagraphs
    simp
  · intro hD hN
    have hNQ : (0 : ℚ) < (N : ℚ) := by exact_mod_cast hN
    have hsd : (0 : ℚ) ≤ D / N := le_of_lt (div_pos hD hNQ)
    have hclip : ∀ i : ℕ, i < N →
        min ((i : ℚ) * (D / N) + D / N) D = (i : ℚ) * (D / N) + D / N := by
      intro i hi
      apply min_eq_left
      have hiq : ((i : ℚ) + 1) ≤ (N : ℚ) := by exact_mod_cast hi
      have hmul : ((i : ℚ) + 1) * (D / N) ≤ (N : ℚ) * (D / N) :=
        mul_le_mul_of_nonneg_right hiq hsd
      have hND : (N : ℚ) * (D / N) = D := by field_simp
      calc (i : ℚ) * (D / N) + D / N = ((i : ℚ) + 1) * (D / N) := by ring
        _ ≤ (N : ℚ) * (D / N) := hmul
        _ = D := hND
    have hbound : ∀ (i : ℕ) (a : AudioSegment),
        (segmentByTextParagraphs N D)[i]? = some a → i < N := by
      intro i a ha
      by_contra hcon
      push_neg at hcon
      rw [List.getElem?_eq_none (by omega : (segmentByTextParagraphs N D).length ≤ i)] at ha
      exact Option.noConfusion ha
    refine ⟨hlen, ?_, ?_, ?_, ?_⟩
    · intro a ha
      rw [segmentByTextParagraphs_getElem N D 0 hN, Option.some.injEq] at ha
      rw [← ha]
      norm_num
    · intro a ha
      have hlt : N - 1 < N := by omega
      rw [segmentByTextParagraphs_getElem N D (N - 1) hlt, Option.some.injEq] at ha
      rw [← ha]
      show min (((N - 1 : ℕ) : ℚ) * (D / N) + D / N) D = D
      rw [hclip (N - 1) hlt]
      have hcast : ((N - 1 : ℕ) : ℚ) = (N : ℚ) - 1 := by
        push_cast [hN]
        ring
      rw [hcast]
      field_simp
      ring
    · intro i a b ha hb
      have hi1 : i + 1 < N := hbound (i + 1) b hb
      have hi : i < N := by omega
      rw [segmentByTextParagraphs_getElem N D i hi, Option.some.injEq] at ha
      rw [segmentByTextParagraphs_getElem N D (i + 1) hi1, Option.some.injEq] at hb
      rw [← ha, ← hb]
      show min ((i : ℚ) * (D / N) + D / N) D = ((i + 1 : ℕ) : ℚ) * (D / N)
      rw [hclip i hi]
      push_cast
      ring
    · intro i a ha
      have hi : i < N := hbound i a ha
      rw [segmentByTextParagraphs_getElem N D i hi, Option.some.injEq] at ha
      rw [← ha]
      refine ⟨rfl, ?_⟩
      show (i : ℚ) * (D / N) ≤ min ((i : ℚ) * (D / N) + D / N) D
      rw [hclip i hi]
      linarith
  · intro hD hN
    subst hN
    unfold segmentByTextParagraphs
    norm_num [List.range_succ]

/-- Witness for claim C5 at `N = 2`, `D = 5`. -/
theorem claim5_planner_witness :
    (0 : ℚ) < 5 ∧ 1 ≤ 2 ∧ (segmentByTextParagraphs 2 5).length = 2 := by
  refine ⟨by norm_num, by norm_num, ?_⟩
  exact ((claim5_planner 2 5).2.1 (by norm_num) (by norm_num)).1

-- --- C9: the getAudioInfo stub ---

/-- Claim C9: for every file size, the stub `getAudioInfo` returns as duration
the maximum of the size-based estimate `size * 8 / 128000` seconds and 10, so
every duration it feeds downstream is at least 10 seconds. -/
theorem claim9_audio_info (fileSizeInBytes : ℕ) :
    (getAudioInfo fileSizeInBytes).duration =
      max ((fileSizeInBytes * 8 : ℚ) / 128000) 10 ∧
    10 ≤ (getAudioInfo fileSizeInBytes).duration := by
  constructor
  · norm_num [getAudioInfo]
  · exact le_max_right _ _

-- --- C10: generateSegmentAudios keeps the index correspondence ---

theorem generateSegmentAudios_getElem (ok : ℕ → Bool)
    (l : List AudioSegment) (j i : ℕ) (s : AudioSegment) (h : l[i]? = some s) :
    (generateSegmentAudios ok l j)[i]? =
      some (if ok (j + i) then some ⟨s⟩ else none) := by
  induction l generalizing j i with
  | nil => simp at h
  | cons a t ih =>
      cases i with
      | zero =>
          simp at h
          subst h
          simp [generateSegmentAudios]
      | succ n =>
          simp at h
          have hrec := ih (j + 1) n h
          have harith : j + 1 + n = j + (n + 1) := by omega
          rw [harith] at hrec
          simpa [generateSegmentAudios] using hrec

theorem generateSegmentAudios_length (ok : ℕ → Bool)
    (l : List AudioSegment) (j : ℕ) :
    (generateSegmentAudios ok l j).length = l.length := by
  induction l generalizing j with
  | nil => simp [generateSegmentAudios]
  | cons a t ih => simp [generateSegmentAudios, ih]

/-- Claim C10: `generateSegmentAudios` returns a list of exactly the input's
length, and entry `i` is either `none` (the i-th extraction failed) or a
record whose `segment` field is exactly the input's i-th segment; failures
never shift, drop or reorder later entries. -/
theorem claim10_segment_audios (ok : ℕ → Bool) (segs : List AudioSegment) :
    (generateSegmentAudios ok segs 0).length = segs.length ∧
    ∀ (i : ℕ) (s : AudioSegment), segs[i]? = some s →
      (generateSegmentAudios ok segs 0)[i]? =
        some (if ok i then some ⟨s⟩ else none) := by
  refine ⟨generateSegmentAudios_length ok segs 0, ?_⟩
  intro i s h
  simpa using generateSegmentAudios_getElem ok segs 0 i s h

/-- Witness for claim C10: with an oracle failing exactly at index 1, entry 1
is a null placeholder. -/
theorem claim10_segment_audios_witness :
    witnessSegs3[1]? = some ⟨2, 5, 3⟩ ∧
    (generateSegmentAudios (fun i => i ≠ 1) witnessSegs3 0)[1]? = some none := by
  refine ⟨rfl, ?_⟩
  have h := (claim10_segment_audios (fun i => i ≠ 1) witnessSegs3).2 1 ⟨2, 5, 3⟩ rfl
  simpa using h

-- --- C3: the one-to-one strategy ---

theorem collectPairings_generate (l : List AudioSegment) (i : ℕ) :
    collectPairings (generateSegmentAudios okAll l i) i =
      (List.enumFrom i l).map (fun p => oneToOnePairing p.1 p.2) := by
  induction l generalizing i with
  | nil => simp [generateSegmentAudios, collectPairings]
  | cons s t ih =>
      simp only [generateSegmentAudios, okAll, if_true, List.enumFrom,
        List.map_cons, collectPairings]
      exact congrArg _ (ih (i + 1))

/-- Claim C3: for `P, S ≥ 1` with `|P-S|/max(P,S) ≤ 0.2`, the matcher uses
the one-to-one strategy and (with every adapter call succeeding) produces
exactly `min(P,S)` pairings, pairing paragraph `i` with segment `i`;
paragraphs or segments beyond `min(P,S)` are simply left without a pairing
and no error is raised (the embedding is total). -/
theorem claim3_one_to_one (P : ℕ) (segs : List AudioSegment)
    (hP : 1 ≤ P) (hS : 1 ≤ segs.length)
    (hr : mismatchQ P segs.length ≤ 1 / 5) :
    (matchParagraphsWithAudioSegments okAll P segs).audioSegments =
      (List.enum (segs.take (min P segs.length))).map
        (fun p => oneToOnePairing p.1 p.2) ∧
    (matchParagraphsWithAudioSegments okAll P segs).audioSegments.length =
      min P segs.length := by
  have hsel : (matchParagraphsWithAudioSegments okAll P segs).audioSegments =
      oneToOneMatch okAll P segs := by
    simp only [matchParagraphsWithAudioSegments]
    rw [if_pos hr]
  have hone : oneToOneMatch okAll P segs =
      (List.enum (segs.take (min P segs.length))).map
        (fun p => oneToOnePairing p.1 p.2) := by
    unfold oneToOneMatch
    exact collectPairings_generate (segs.take (min P segs.length)) 0
  refine ⟨hsel.trans hone, ?_⟩
  rw [hsel, hone]
  rw [List.length_map, List.enum_length, List.length_take]
  omega

/-- Witness for claim C3 at `P = 3` against the three concrete segments of
`witnessSegs3` (ratio 0). -/
theorem claim3_one_to_one_witness :
    mismatchQ 3 witnessSegs3.length ≤ 1 / 5 ∧
    (matchParagraphsWithAudioSegments okAll 3 witnessSegs3).audioSegments.length = 3 := by
  have hr : mismatchQ 3 witnessSegs3.length ≤ 1 / 5 := by
    norm_num [mismatchQ, witnessSegs3]
  refine ⟨hr, ?_⟩
  have h := (claim3_one_to_one 3 witnessSegs3 (by norm_num)
    (by norm_num [witnessSegs3]) hr).2
  simpa [witnessSegs3] using h

-- --- C4: the needsManualAdjustment flag ---

/-- Claim C4: the matcher's `needsManualAdjustment` flag is true exactly when
`|P-S|/max(P,S) > 0.3`; in particular, for ratios strictly between 0.2 and
0.3 the merge or split strategy runs but the flag stays false. -/
theorem claim4_flag (ok : ℕ → Bool) (P : ℕ) (segs : List AudioSegment)
    (hP : 1 ≤ P) (hS : 1 ≤ segs.length) :
    ((matchParagraphsWithAudioSegments ok P segs).needsManualAdjustment = true ↔
      3 / 10 < mismatchQ P segs.length) ∧
    (1 / 5 < mismatchQ P segs.length →
      (matchParagraphsWithAudioSegments ok P segs).audioSegments =
        (if P < segs.length then mergeAudioSegments ok P segs
         else splitAudioSegments ok P segs) ∧
      (mismatchQ P segs.length ≤ 3 / 10 →
        (matchParagraphsWithAudioSegments ok P segs).needsManualAdjustment = false)) := by
  refine ⟨?_, ?_⟩
  · unfold matchParagraphsWithAudioSegments
    simp
  · intro hr
    constructor
    · simp only [matchParagraphsWithAudioSegments]
      rw [if_neg (not_le.mpr hr)]
    · intro h3
      simp only [matchParagraphsWithAudioSegments]
      rw [decide_eq_false (not_lt.mpr h3)]

/-- Witness for claim C4 at the spec's dead-zone scenario `P = 10`,
`S = 13` (ratio 3/13 is strictly between 0.2 and 0.3): the merge strategy is
selected and the flag is false. -/
theorem claim4_flag_witness :
    1 / 5 < mismatchQ 10 witnessSegs13.length ∧
    mismatchQ 10 witnessSegs13.length ≤ 3 / 10 ∧
    (matchParagraphsWithAudioSegments okAll 10 witnessSegs13).needsManualAdjustment
      = false := by
  have hlen : witnessSegs13.length = 13 := by
    unfold witnessSegs13
    rw [List.length_map, List.length_range]
  have hr : 1 / 5 < mismatchQ 10 witnessSegs13.length := by
    rw [hlen]
    norm_num [mismatchQ]
  have h3 : mismatchQ 10 witnessSegs13.length ≤ 3 / 10 := by
    rw [hlen]
    norm_num [mismatchQ]
  exact ⟨hr, h3, ((claim4_flag okAll 10 witnessSegs13 (by norm_num)
    (by rw [hlen]; norm_num)).2 hr).2 h3⟩

-- --- C1: the merge strategy ---

theorem filterMap_eq_map_of_forall_mem {α β : Type} {f : α → Option β}
    {g : α → β} (l : List α) (h : ∀ a ∈ l, f a = some (g a)) :
    l.filterMap f = l.map g := by
  induction l with
  | nil => simp
  | cons a t ih =>
      rw [List.filterMap_cons, h a (List.mem_cons_self a t), List.map_cons]
      rw [ih fun x hx => h x (List.mem_cons_of_mem a hx)]

theorem getLastD_getElem? {α : Type} (gs : List α) (g : α) :
    (g :: gs)[gs.length]? = some (gs.getLastD g) := by
  induction gs generalizing g with
  | nil => rfl
  | cons c t ih =>
      rw [List.getLastD_cons]
      simpa using ih c

theorem filterMap_range_add_eq_map {β : Type} (mm dd : ℕ) (f : ℕ → Option β)
    (g : ℕ → β) (h1 : ∀ i < mm, f i = some (g i))
    (h2 : ∀ i, mm ≤ i → f i = none) :
    (List.range (mm + dd)).filterMap f = (List.range mm).map g := by
  rw [List.range_add, List.filterMap_append, List.filterMap_map]
  have hA : (List.range mm).filterMap f = (List.range mm).map g :=
    filterMap_eq_map_of_forall_mem _ (fun a ha => h1 a (List.mem_range.mp ha))
  have hB : (List.range dd).filterMap (f ∘ fun x => mm + x) = [] := by
    apply List.filterMap_eq_nil_iff.mpr
    intro x _
    exact h2 (mm + x) (by omega)
  rw [hA, hB, List.append_nil]

/-- With every adapter call succeeding, the merge strategy produces one
pairing per non-empty segment group, i.e. for each `i < ceil(S / k)` where
`k = ceil(S / P)`. -/
theorem mergeAudioSegments_okAll_eq (P : ℕ) (segs : List AudioSegment)
    (hP : 1 ≤ P) (hS : 1 ≤ segs.length) :
    mergeAudioSegments okAll P segs =
      (List.range (cdiv segs.length (cdiv segs.length P))).map (fun (i : ℕ) =>
        { startTime := ((segs[(i * cdiv segs.length P)]?).getD default).startTime
          endTime := ((segs[(min (i * cdiv segs.length P + cdiv segs.length P)
              segs.length - 1)]?).getD default).endTime
          duration := ((segs[(min (i * cdiv segs.length P + cdiv segs.length P)
              segs.length - 1)]?).getD default).endTime
            - ((segs[(i * cdiv segs.length P)]?).getD default).startTime
          order := i + 1 }) := by
  have hk : 1 ≤ cdiv segs.length P := one_le_cdiv hS hP
  have hmP : cdiv segs.length (cdiv segs.length P) ≤ P := by
    rw [cdiv_le_iff _ hk]
    exact le_mul_cdiv hP
  unfold mergeAudioSegments
  set k := cdiv segs.length P with hkdef
  set m := cdiv segs.length k with hmdef
  obtain ⟨d, hd⟩ : ∃ d, P = m + d := ⟨P - m, by omega⟩
  rw [hd]
  apply filterMap_range_add_eq_map
  · -- groups below m are non-empty and produce the merged pairing
    intro i him
    have hik : i * k < segs.length := (lt_cdiv_iff i hk).mp (by omega)
    have hglen : ((segs.drop (i * k)).take k).length
        = min k (segs.length - i * k) := by
      rw [List.length_take, List.length_drop]
    cases hgl : (segs.drop (i * k)).take k with
    | nil =>
        rw [hgl] at hglen
        simp at hglen
        omega
    | cons ghd gtl =>
        rw [hgl] at hglen
        have hghd : segs[i * k]? = some ghd := by
          have h0 : ((segs.drop (i * k)).take k)[0]? = some ghd := by
            rw [hgl]; simp
          rw [List.getElem?_take, if_pos (show 0 < k by omega),
            List.getElem?_drop] at h0
          simpa using h0
        have hltk : gtl.length < k := by
          simp at hglen; omega
        have hlast : segs[min (i * k + k) segs.length - 1]?
            = some (gtl.getLastD ghd) := by
          have h1 : ((segs.drop (i * k)).take k)[gtl.length]?
              = some (gtl.getLastD ghd) := by
            rw [hgl]; exact getLastD_getElem? gtl ghd
          rw [List.getElem?_take, if_pos hltk, List.getElem?_drop] at h1
          have hidx : i * k + gtl.length = min (i * k + k) segs.length - 1 := by
            simp at hglen; omega
          rw [hidx] at h1
          exact h1
        rw [hghd, hlast]
        simp [okAll]
  · -- groups at or beyond m are empty and produce nothing
    intro i hmi
    have hge : segs.length ≤ i * k := by
      have hnot := lt_cdiv_iff (a := segs.length) (b := k) i hk
      omega
    have hnil : segs.drop (i * k) = [] := List.drop_eq_nil_of_le hge
    rw [hnil]
    simp

/-- Claim C1, counterexample: for `P = 3` paragraphs against `S = 4` segments
(ratio 1/4 > 0.2, merge strategy, every adapter call succeeding), the matcher
produces 2 pairings, not `P = 3`: the third paragraph's segment group
(`ceil(4/3) = 2` segments per paragraph, starting at index 4) is empty. -/
theorem claim1_merge_counterexample :
    1 / 5 < mismatchQ 3 counterexampleSegs4.length ∧
    3 < counterexampleSegs4.length ∧
    (matchParagraphsWithAudioSegments okAll 3 counterexampleSegs4).audioSegments.length
      = 2 := by
  refine ⟨by norm_num [mismatchQ, counterexampleSegs4],
    by norm_num [counterexampleSegs4], ?_⟩
  rw [matchParagraphsWithAudioSegments]
  simp only [counterexampleSegs4, List.length_cons, List.length_nil]
  norm_num [mismatchQ, mergeAudioSegments, cdiv, okAll, List.range_succ,
    List.filterMap_append, List.filterMap_cons, List.filterMap_nil,
    List.take_succ_cons, List.take_nil, List.drop_succ_cons, List.drop_nil]

/-- Claim C1 (amended): for `P, S ≥ 1` with `S > P` and ratio > 0.2 (every
adapter call succeeding), the merge strategy produces exactly
`ceil(S / k)` pairings where `k = ceil(S / P)` - that is, one per paragraph
whose contiguous segment group `[i*k ..< min(i*k+k, S))` is non-empty (this
equals `P` only when `(P-1)*k < S`; later paragraphs receive no pairing).
Pairing `i` merges its group into the range from the group's first segment's
startTime to its last segment's endTime. -/
theorem claim1_merge (P : ℕ) (segs : List AudioSegment)
    (hP : 1 ≤ P) (hPS : P < segs.length)
    (hr : 1 / 5 < mismatchQ P segs.length) :
    (matchParagraphsWithAudioSegments okAll P segs).audioSegments.length =
      cdiv segs.length (cdiv segs.length P) ∧
    ∀ (i : ℕ) (a b : AudioSegment),
      i < cdiv segs.length (cdiv segs.length P) →
      segs[i * cdiv segs.length P]? = some a →
      segs[min (i * cdiv segs.length P + cdiv segs.length P) segs.length - 1]?
        = some b →
      (matchParagraphsWithAudioSegments okAll P segs).audioSegments[i]? =
        some { startTime := a.startTime, endTime := b.endTime
               duration := b.endTime - a.startTime, order := i + 1 } := by
  have hsel : (matchParagraphsWithAudioSegments okAll P segs).audioSegments =
      mergeAudioSegments okAll P segs := by
    simp only [matchParagraphsWithAudioSegments]
    rw [if_neg (not_le.mpr hr), if_pos hPS]
  rw [hsel, mergeAudioSegments_okAll_eq P segs hP (by omega)]
  constructor
  · rw [List.length_map, List.length_range]
  · intro i a b him ha hb
    rw [List.getElem?_map, List.getElem?_range him, Option.map_some']
    rw [ha, hb]
    rfl

/-- Witness for claim C1 at `P = 3` against the four segments of
`counterexampleSegs4`: `k = 2` and `ceil(4/2) = 2` pairings are produced. -/
theorem claim1_merge_witness :
    3 < counterexampleSegs4.length ∧
    1 / 5 < mismatchQ 3 counterexampleSegs4.length ∧
    (matchParagraphsWithAudioSegments okAll 3 counterexampleSegs4).audioSegments.length
      = cdiv counterexampleSegs4.length (cdiv counterexampleSegs4.length 3) := by
  have h1 : 3 < counterexampleSegs4.length := by norm_num [counterexampleSegs4]
  have h2 : 1 / 5 < mismatchQ 3 counterexampleSegs4.length := by
    norm_num [mismatchQ, counterexampleSegs4]
  exact ⟨h1, h2, (claim1_merge 3 counterexampleSegs4 (by norm_num) h1 h2).1⟩

-- --- C2: the split strategy ---

theorem splitSubsegments_okAll (P k : ℕ) (seg : AudioSegment) (j : ℕ) :
    splitSubsegments okAll P k seg j =
      (List.range (groupSize P k j)).map (subPairing P k seg j) := by
  unfold splitSubsegments
  apply filterMap_eq_map_of_forall_mem
  intro t _
  simp [okAll, subPairing, groupSize]

theorem splitLoop_append (ok : ℕ → Bool) (P k : ℕ)
    (A B : List AudioSegment) (j : ℕ) :
    splitLoop ok P k (A ++ B) j =
      splitLoop ok P k A j ++ splitLoop ok P k B (j + A.length) := by
  induction A generalizing j with
  | nil => simp [splitLoop]
  | cons s t ih =>
      simp only [List.cons_append, splitLoop, List.length_cons, List.append_eq]
      rw [ih (j + 1), List.append_assoc]
      have : j + 1 + t.length = j + (t.length + 1) := by omega
      rw [this]

theorem splitLoop_length_okAll (P k : ℕ) (l : List AudioSegment) (j : ℕ) :
    (splitLoop okAll P k l j).length =
      min ((j + l.length) * k) P - min (j * k) P := by
  induction l generalizing j with
  | nil => simp [splitLoop]
  | cons s t ih =>
      simp only [splitLoop, List.length_append, List.length_cons]
      rw [splitSubsegments_okAll, List.length_map, List.length_range, ih (j + 1)]
      unfold groupSize
      have e1 : (j + 1) * k = j * k + k := by ring
      have e2 : (j + 1 + t.length) * k = j * k + k + t.length * k := by ring
      have e3 : (j + (t.length + 1)) * k = j * k + k + t.length * k := by ring
      rw [e1, e2, e3]
      omega

theorem splitLoop_decompose (ok : ℕ → Bool) (P k : ℕ)
    (segs : List AudioSegment) (j : ℕ) (seg : AudioSegment)
    (hjseg : segs[j]? = some seg) :
    splitLoop ok P k segs 0 =
      splitLoop ok P k (segs.take j) 0 ++
        (splitSubsegments ok P k seg j ++
          splitLoop ok P k (segs.drop (j + 1)) (j + 1)) := by
  have hjlt : j < segs.length := by
    by_contra hc
    push_neg at hc
    rw [List.getElem?_eq_none hc] at hjseg
    exact Option.noConfusion hjseg
  have h0 : (segs.drop j)[0]? = some seg := by
    rw [List.getElem?_drop]
    simpa using hjseg
  have hdropj : segs.drop j = seg :: segs.drop (j + 1) := by
    cases hcase : segs.drop j with
    | nil =>
        rw [hcase] at h0
        exact Option.noConfusion h0
    | cons x xs =>
        rw [hcase] at h0
        have hx : x = seg := by simpa using h0
        have hxs : xs = segs.drop (j + 1) := by
          have hdd : segs.drop (j + 1) = (segs.drop j).drop 1 := by
            rw [List.drop_drop, Nat.add_comm]
          rw [hdd, hcase]
          simp
        rw [hx, hxs]
  conv_lhs => rw [← List.take_append_drop j segs, hdropj]
  rw [splitLoop_append]
  have hlen : (segs.take j).length = j := by
    rw [List.length_take]
    omega
  rw [hlen]
  simp only [splitLoop, Nat.zero_add]

/-- Claim C2: for `P, S ≥ 1` with `P > S` and ratio > 0.2 (every adapter call
succeeding, segments well-formed), the split strategy produces exactly `P`
pairings, and for each segment `j` with a non-empty paragraph group the
group's pairings are exactly the sub-ranges `subPairing`, which are laid
back-to-back starting at `segs[j].startTime`, each of length
`segs[j].duration / groupSize`, with the final one clipped to
`segs[j].endTime` - so their union reconstructs segment `j`'s original range
with no gap and no overlap (in exact arithmetic). -/
theorem claim2_split (P : ℕ) (segs : List AudioSegment)
    (hP : 1 ≤ P) (hS : 1 ≤ segs.length) (hSP : segs.length < P)
    (hr : 1 / 5 < mismatchQ P segs.length)
    (hwf : ∀ s ∈ segs, s.duration = s.endTime - s.startTime ∧
      s.startTime ≤ s.endTime) :
    (matchParagraphsWithAudioSegments okAll P segs).audioSegments.length = P ∧
    ∀ (j : ℕ) (seg : AudioSegment), segs[j]? = some seg →
      0 < groupSize P (cdiv P segs.length) j →
      (((matchParagraphsWithAudioSegments okAll P segs).audioSegments.drop
          (j * cdiv P segs.length)).take (groupSize P (cdiv P segs.length) j) =
        (List.range (groupSize P (cdiv P segs.length) j)).map
          (subPairing P (cdiv P segs.length) seg j)) ∧
      (subPairing P (cdiv P segs.length) seg j 0).startTime = seg.startTime ∧
      (subPairing P (cdiv P segs.length) seg j
          (groupSize P (cdiv P segs.length) j - 1)).endTime = seg.endTime ∧
      (∀ t : ℕ, t + 1 < groupSize P (cdiv P segs.length) j →
        (subPairing P (cdiv P segs.length) seg j t).endTime =
          (subPairing P (cdiv P segs.length) seg j (t + 1)).startTime) ∧
      (∀ t : ℕ, (subPairing P (cdiv P segs.length) seg j t).duration =
          (subPairing P (cdiv P segs.length) seg j t).endTime -
            (subPairing P (cdiv P segs.length) seg j t).startTime ∧
        (subPairing P (cdiv P segs.length) seg j t).order =
          j * cdiv P segs.length + t + 1) := by
  have hk : 1 ≤ cdiv P segs.length := one_le_cdiv hP hS
  have hsel : (matchParagraphsWithAudioSegments okAll P segs).audioSegments =
      splitAudioSegments okAll P segs := by
    simp only [matchParagraphsWithAudioSegments]
    rw [if_neg (not_le.mpr hr), if_neg (by omega : ¬ P < segs.length)]
  have hPk : P ≤ segs.length * cdiv P segs.length := le_mul_cdiv hS
  constructor
  · rw [hsel]
    unfold splitAudioSegments
    rw [splitLoop_length_okAll]
    simp only [Nat.zero_add, Nat.zero_mul]
    omega
  · intro j seg hjseg hg
    have hsmem : seg ∈ segs := by
      have hjlt : j < segs.length := by
        by_contra hc
        push_neg at hc
        rw [List.getElem?_eq_none hc] at hjseg
        exact Option.noConfusion hjseg
      exact List.getElem?_mem hjseg
    obtain ⟨hdur, hle⟩ := hwf seg hsmem
    have hjkP : j * cdiv P segs.length < P := by
      have := hg
      unfold groupSize at this
      omega
    constructor
    · -- the group's pairings are exactly the sub-ranges
      rw [hsel]
      unfold splitAudioSegments
      rw [splitLoop_decompose okAll P (cdiv P segs.length) segs j seg hjseg]
      have hpre : (splitLoop okAll P (cdiv P segs.length) (segs.take j) 0).length
          = j * cdiv P segs.length := by
        rw [splitLoop_length_okAll]
        have hjlt : j < segs.length := by
          by_contra hc
          push_neg at hc
          rw [List.getElem?_eq_none hc] at hjseg
          exact Option.noConfusion hjseg
        have hlen : (segs.take j).length = j := by
          rw [List.length_take]; omega
        rw [hlen]
        simp only [Nat.zero_add, Nat.zero_mul]
        omega
      rw [List.drop_left' hpre]
      rw [splitSubsegments_okAll]
      apply List.take_left'
      rw [List.length_map, List.length_range]
    · -- the exact-arithmetic reconstruction facts
      have hgQ : ((groupSize P (cdiv P segs.length) j : ℕ) : ℚ) ≠ 0 := by
        exact_mod_cast Nat.pos_iff_ne_zero.mp hg
      have hd0 : (0 : ℚ) ≤ seg.duration := by rw [hdur]; linarith
      have hsd0 : (0 : ℚ) ≤ seg.duration /
          ((groupSize P (cdiv P segs.length) j : ℕ) : ℚ) := by
        apply div_nonneg hd0
        exact_mod_cast Nat.zero_le _
      refine ⟨?_, ?_, ?_, ?_⟩
      · simp [subPairing]
      · unfold subPairing
        simp only []
        have hone : ((groupSize P (cdiv P segs.length) j - 1 : ℕ) : ℚ) =
            ((groupSize P (cdiv P segs.length) j : ℕ) : ℚ) - 1 := by
          have h1 : 1 ≤ groupSize P (cdiv P segs.length) j := hg
          push_cast [h1]
          ring
        rw [hone]
        have hfull : (((groupSize P (cdiv P segs.length) j : ℕ) : ℚ) - 1) *
            (seg.duration / ((groupSize P (cdiv P segs.length) j : ℕ) : ℚ)) +
            seg.duration / ((groupSize P (cdiv P segs.length) j : ℕ) : ℚ) =
            seg.duration := by
          field_simp
          ring
        rw [show seg.startTime +
            (((groupSize P (cdiv P segs.length) j : ℕ) : ℚ) - 1) *
              (seg.duration / ((groupSize P (cdiv P segs.length) j : ℕ) : ℚ)) +
            seg.duration / ((groupSize P (cdiv P segs.length) j : ℕ) : ℚ) =
            seg.startTime + seg.duration from by rw [add_assoc, hfull]]
        rw [hdur]
        have : seg.startTime + (seg.endTime - seg.startTime) = seg.endTime := by
          ring
        rw [this, min_self]
      · intro t ht
        unfold subPairing
        simp only []
        have htle : ((t : ℚ) + 1) ≤
            ((groupSize P (cdiv P segs.length) j : ℕ) : ℚ) := by
          exact_mod_cast Nat.le_of_lt ht
        have hbound : seg.startTime + (t : ℚ) *
            (seg.duration / ((groupSize P (cdiv P segs.length) j : ℕ) : ℚ)) +
            seg.duration / ((groupSize P (cdiv P segs.length) j : ℕ) : ℚ)
            ≤ seg.endTime := by
          have h1 : ((t : ℚ) + 1) *
              (seg.duration / ((groupSize P (cdiv P segs.length) j : ℕ) : ℚ)) ≤
              ((groupSize P (cdiv P segs.length) j : ℕ) : ℚ) *
              (seg.duration / ((groupSize P (cdiv P segs.length) j : ℕ) : ℚ)) :=
            mul_le_mul_of_nonneg_right htle hsd0
          have h2 : ((groupSize P (cdiv P segs.length) j : ℕ) : ℚ) *
              (seg.duration / ((groupSize P (cdiv P segs.length) j : ℕ) : ℚ)) =
              seg.duration := by
            field_simp
          have h3 : seg.startTime + seg.duration = seg.endTime := by
            rw [hdur]; ring
          nlinarith [h1, h2, h3]
        rw [min_eq_left hbound]
        push_cast
        ring
      · intro t
        exact ⟨rfl, rfl⟩

/-- Witness for claim C2 at `P = 3` against the two well-formed segments of
`witnessSegs2`: `k = ceil(3/2) = 2`, segment 0's group holds paragraphs 0-1
and segment 1's group holds paragraph 2; 3 pairings are produced. -/
theorem claim2_split_witness :
    witnessSegs2.length < 3 ∧
    1 / 5 < mismatchQ 3 witnessSegs2.length ∧
    (matchParagraphsWithAudioSegments okAll 3 witnessSegs2).audioSegments.length
      = 3 := by
  have h1 : witnessSegs2.length < 3 := by norm_num [witnessSegs2]
  have h2 : 1 / 5 < mismatchQ 3 witnessSegs2.length := by
    norm_num [mismatchQ, witnessSegs2]
  have hwf : ∀ s ∈ witnessSegs2, s.duration = s.endTime - s.startTime ∧
      s.startTime ≤ s.endTime := by
    intro s hs
    simp only [witnessSegs2, List.mem_cons, List.not_mem_nil, or_false] at hs
    rcases hs with rfl | rfl
    · constructor <;> norm_num
    · constructor <;> norm_num
  exact ⟨h1, h2, (claim2_split 3 witnessSegs2 (by norm_num)
    (by norm_num [witnessSegs2]) h1 h2 hwf).1⟩

-- --- C8: the batch audio-generation pass ---

theorem generateAudioForParagraphs_getElem (synth : ℕ → Except String SpeechResult)
    (l : List ParagraphRecord) (j i : ℕ) (p : ParagraphRecord)
    (h : l[i]? = some p) :
    (generateAudioForParagraphs synth l j)[i]? =
      some (match synth (j + i) with
            | Except.ok r =>
                { audioUrl := some r.audioUrl, audioFileName := some r.fileName
                  audioDuration := some r.duration }
            | Except.error _ => p) := by
  induction l generalizing j i with
  | nil => simp at h
  | cons a t ih =>
      cases i with
      | zero =>
          simp at h
          subst h
          simp [generateAudioForParagraphs]
      | succ n =>
          simp at h
          have hrec := ih (j + 1) n h
          have harith : j + 1 + n = j + (n + 1) := by omega
          rw [harith] at hrec
          simpa [generateAudioForParagraphs] using hrec

theorem generateAudioForParagraphs_length (synth : ℕ → Except String SpeechResult)
    (l : List ParagraphRecord) (j : ℕ) :
    (generateAudioForParagraphs synth l j).length = l.length := by
  induction l generalizing j with
  | nil => simp [generateAudioForParagraphs]
  | cons a t ih => simp [generateAudioForParagraphs, ih]

/-- Claim C8: the batch audio-generation pass over a document's paragraphs is
total (it never propagates a synthesis exception - each failure is caught and
the loop continues) and, starting from freshly parsed paragraphs with null
audio fields, every paragraph whose synthesis call succeeds ends with a
non-null audio reference while a failing paragraph keeps its null fields,
regardless of failures of other paragraphs. -/
theorem claim8_batch_audio (synth : ℕ → Except String SpeechResult)
    (paras : List ParagraphRecord)
    (hnull : ∀ p ∈ paras, p.audioUrl = none) :
    (generateAudioForParagraphs synth paras 0).length = paras.length ∧
    ∀ (i : ℕ) (p : ParagraphRecord), paras[i]? = some p →
      (∀ r, synth i = Except.ok r →
        (generateAudioForParagraphs synth paras 0)[i]? =
          some { audioUrl := some r.audioUrl, audioFileName := some r.fileName
                 audioDuration := some r.duration }) ∧
      (∀ e, synth i = Except.error e →
        (generateAudioForParagraphs synth paras 0)[i]? = some p ∧
        p.audioUrl = none) := by
  refine ⟨generateAudioForParagraphs_length synth paras 0, ?_⟩
  intro i p hp
  have hElem := generateAudioForParagraphs_getElem synth paras 0 i p hp
  rw [Nat.zero_add] at hElem
  constructor
  · intro r hr
    rw [hElem, hr]
  · intro e he
    rw [hElem, he]
    exact ⟨rfl, hnull p (List.getElem?_mem hp)⟩

/-- Witness for claim C8: amid 5 paragraphs with the oracle failing exactly at
index 2, paragraph 2 keeps its null audio fields while paragraph 0 gets a
non-null reference. -/
theorem claim8_batch_audio_witness :
    witnessSynth 2 = Except.error "boom" ∧
    (generateAudioForParagraphs witnessSynth witnessParas5 0)[2]? =
      some ⟨none, none, none⟩ ∧
    (generateAudioForParagraphs witnessSynth witnessParas5 0)[0]? =
      some ⟨some "url", some "file", some 1⟩ := by
  have hnull : ∀ p ∈ witnessParas5, p.audioUrl = none := by
    intro p hp
    rw [List.eq_of_mem_replicate hp]
  have h := (claim8_batch_audio witnessSynth witnessParas5 hnull).2
  refine ⟨rfl, ?_, ?_⟩
  · exact ((h 2 ⟨none, none, none⟩ rfl).2 "boom" rfl).1
  · exact (h 0 ⟨none, none, none⟩ rfl).1 ⟨"url", "file", 1⟩ rfl

-- --- C6: cleanText idempotence (corrected) ---

theorem hasCRLF_cons (c : Char) (l : List Char) :
    hasCRLF (c :: l) = true ↔
      (c = '\r' ∧ l.head? = some '\n') ∨ hasCRLF l = true := by
  cases l with
  | nil => simp [hasCRLF]
  | cons c₂ t =>
      by_cases h : c = '\r' ∧ c₂ = '\n'
      · simp [hasCRLF, h]
      · rw [hasCRLF, if_neg h]
        simp only [List.head?_cons, Option.some.injEq]
        constructor
        · exact Or.inr
        · rintro (⟨h1, h2⟩ | h2)
          · exact absurd ⟨h1, h2⟩ h
          · exact h2

theorem hasCRLF_tail (c : Char) (l : List Char)
    (h : hasCRLF (c :: l) = false) : hasCRLF l = false := by
  by_contra hc
  rw [Bool.not_eq_false] at hc
  have := (hasCRLF_cons c l).mpr (Or.inr hc)
  rw [h] at this
  exact Bool.noConfusion this

theorem hasNL3_cons₂ (a b : Char) (t : List Char) :
    hasNL3 (a :: b :: t) = true ↔
      (a = '\n' ∧ b = '\n' ∧ t.head? = some '\n') ∨ hasNL3 (b :: t) = true := by
  cases t with
  | nil => simp [hasNL3]
  | cons c₃ t' =>
      by_cases h : a = '\n' ∧ b = '\n' ∧ c₃ = '\n'
      · simp [hasNL3, h]
      · rw [hasNL3, if_neg h]
        simp only [List.head?_cons, Option.some.injEq]
        constructor
        · exact Or.inr
        · rintro (⟨h1, h2, h3⟩ | h2)
          · exact absurd ⟨h1, h2, h3⟩ h
          · exact h2

theorem hasNL3_tail (a : Char) (l : List Char)
    (h : hasNL3 (a :: l) = false) : hasNL3 l = false := by
  cases l with
  | nil => rfl
  | cons b t =>
      by_contra hc
      rw [Bool.not_eq_false] at hc
      have := (hasNL3_cons₂ a b t).mpr (Or.inr hc)
      rw [h] at this
      exact Bool.noConfusion this

theorem hasCRCRLF_tail (a : Char) (l : List Char)
    (h : hasCRCRLF (a :: l) = false) : hasCRCRLF l = false := by
  cases l with
  | nil => rfl
  | cons b t =>
      cases t with
      | nil => rfl
      | cons c₃ t' =>
          rw [hasCRCRLF] at h
          by_cases hcond : a = '\r' ∧ b = '\r' ∧ c₃ = '\n'
          · rw [if_pos hcond] at h
            exact Bool.noConfusion h
          · rw [if_neg hcond] at h
            exact h

theorem hasDblSpTab_cons (c : Char) (l : List Char) :
    hasDblSpTab (c :: l) = true ↔
      (isSpTab c = true ∧ ∃ d, l.head? = some d ∧ isSpTab d = true) ∨
        hasDblSpTab l = true := by
  cases l with
  | nil => simp [hasDblSpTab]
  | cons c₂ t =>
      by_cases h : isSpTab c ∧ isSpTab c₂
      · simp [hasDblSpTab, h]
      · rw [hasDblSpTab, if_neg h]
        simp only [List.head?_cons, Option.some.injEq]
        constructor
        · exact Or.inr
        · rintro (⟨h1, d, hd, h2⟩ | h2)
          · rw [← hd] at h2
            exact absurd ⟨h1, h2⟩ h
          · exact h2

theorem hasDblSpTab_tail (c : Char) (l : List Char)
    (h : hasDblSpTab (c :: l) = false) : hasDblSpTab l = false := by
  by_contra hc
  rw [Bool.not_eq_false] at hc
  have := (hasDblSpTab_cons c l).mpr (Or.inr hc)
  rw [h] at this
  exact Bool.noConfusion this

theorem replaceCRLF_head (l : List Char)
    (h : (replaceCRLF l).head? = some '\n') :
    l.head? = some '\n' ∨ ∃ t, l = '\r' :: '\n' :: t := by
  match l with
  | [] => simp [replaceCRLF] at h
  | [c] =>
      simp [replaceCRLF] at h
      simp [h]
  | c₁ :: c₂ :: t =>
      by_cases hc : c₁ = '\r' ∧ c₂ = '\n'
      · exact Or.inr ⟨t, by rw [hc.1, hc.2]⟩
      · rw [replaceCRLF, if_neg hc] at h
        simp only [List.head?_cons, Option.some.injEq] at h
        exact Or.inl (by simp [h])

/-- On inputs without the window `\r\r\n`, one `replace(/\r\n/g, '\n')` pass
removes every `\r\n` window. -/
theorem replaceCRLF_no_crlf (l : List Char) (h : hasCRCRLF l = false) :
    hasCRLF (replaceCRLF l) = false := by
  induction l using replaceCRLF.induct with
  | case1 => rfl
  | case2 c => rfl
  | case3 c₁ c₂ t hc ih =>
      rw [replaceCRLF, if_pos hc]
      have hrec : hasCRLF (replaceCRLF t) = false :=
        ih (hasCRCRLF_tail _ _ (hasCRCRLF_tail _ _ h))
      by_contra hfc
      rw [Bool.not_eq_false, hasCRLF_cons] at hfc
      rcases hfc with ⟨h1, _⟩ | h2
      · exact absurd h1 (by decide)
      · rw [hrec] at h2
        exact Bool.noConfusion h2
  | case4 c₁ c₂ t hc ih =>
      rw [replaceCRLF, if_neg hc]
      have hrec : hasCRLF (replaceCRLF (c₂ :: t)) = false :=
        ih (hasCRCRLF_tail _ _ h)
      by_contra hfc
      rw [Bool.not_eq_false, hasCRLF_cons] at hfc
      rcases hfc with ⟨h1, h2⟩ | h2
      · -- the head of the rewritten tail is a newline: trace it back
        rcases replaceCRLF_head _ h2 with hh | ⟨t', ht'⟩
        · simp only [List.head?_cons, Option.some.injEq] at hh
          exact hc ⟨h1, hh⟩
        · -- then the input began with \r \r \n, contradicting h
          rw [ht'] at h
          rw [h1] at h
          rw [hasCRCRLF, if_pos ⟨rfl, rfl, rfl⟩] at h
          exact Bool.noConfusion h
      · rw [hrec] at h2
        exact Bool.noConfusion h2

/-- On inputs without `\r\n`, `replace(/\r\n/g, '\n')` is the identity. -/
theorem replaceCRLF_id (l : List Char) (h : hasCRLF l = false) :
    replaceCRLF l = l := by
  induction l using replaceCRLF.induct with
  | case1 => rfl
  | case2 c => rfl
  | case3 c₁ c₂ t hc ih =>
      exfalso
      rw [hasCRLF, if_pos hc] at h
      exact Bool.noConfusion h
  | case4 c₁ c₂ t hc ih =>
      rw [replaceCRLF, if_neg hc, ih (hasCRLF_tail _ _ h)]

theorem hasCRLF_cons_false_intro (a : Char) (X : List Char)
    (h1 : ¬(a = '\r' ∧ X.head? = some '\n')) (h2 : hasCRLF X = false) :
    hasCRLF (a :: X) = false := by
  by_contra hc
  rw [Bool.not_eq_false, hasCRLF_cons] at hc
  rcases hc with h | h
  · exact h1 h
  · rw [h2] at h
    exact Bool.noConfusion h

theorem hasNL3_cons_iff (a : Char) (X : List Char) :
    hasNL3 (a :: X) = true ↔
      (a = '\n' ∧ X.head? = some '\n' ∧ X.tail.head? = some '\n') ∨
        hasNL3 X = true := by
  cases X with
  | nil => simp [hasNL3]
  | cons b t =>
      rw [hasNL3_cons₂]
      simp

theorem hasNL3_cons_false_intro (a : Char) (X : List Char)
    (h1 : ¬(a = '\n' ∧ X.head? = some '\n' ∧ X.tail.head? = some '\n'))
    (h2 : hasNL3 X = false) : hasNL3 (a :: X) = false := by
  by_contra hc
  rw [Bool.not_eq_false, hasNL3_cons_iff] at hc
  rcases hc with h | h
  · exact h1 h
  · rw [h2] at h
    exact Bool.noConfusion h

theorem hasDblSpTab_cons_false_intro (a : Char) (X : List Char)
    (h1 : isSpTab a = true → ∀ d, X.head? = some d → isSpTab d = false)
    (h2 : hasDblSpTab X = false) : hasDblSpTab (a :: X) = false := by
  by_contra hc
  rw [Bool.not_eq_false, hasDblSpTab_cons] at hc
  rcases hc with ⟨ha, d, hd, hsp⟩ | h
  · rw [h1 ha d hd] at hsp
    exact Bool.noConfusion hsp
  · rw [h2] at h
    exact Bool.noConfusion h

theorem collapseNLGo_false_head (l : List Char) :
    (collapseNLGo l false).head? = l.head? := by
  match l with
  | [] => rfl
  | [c] => simp [collapseNLGo]
  | [c, d] => simp [collapseNLGo]
  | c₁ :: c₂ :: c₃ :: t =>
      by_cases h : c₁ = '\n' ∧ c₂ = '\n' ∧ c₃ = '\n'
      · simp [collapseNLGo, h]
      · simp [collapseNLGo, h]

theorem collapseNLGo_true_head (l : List Char) (c : Char)
    (h : (collapseNLGo l true).head? = some c) : c ≠ '\n' := by
  induction l with
  | nil => simp [collapseNLGo] at h
  | cons a t ih =>
      by_cases ha : a = '\n'
      · rw [ha] at h
        simp only [collapseNLGo, if_pos rfl] at h
        exact ih h
      · simp only [collapseNLGo, if_neg ha, List.head?_cons,
          Option.some.injEq] at h
        rw [← h]
        exact ha

/-- The newline-collapsing pass leaves no three consecutive newlines. -/
theorem collapseNLGo_no_nl3 (l : List Char) (skip : Bool) :
    hasNL3 (collapseNLGo l skip) = false := by
  induction l, skip using collapseNLGo.induct with
  | case1 b => cases b <;> rfl
  | case2 t ih =>
      simp only [collapseNLGo, if_pos rfl]
      exact ih
  | case3 c t hc ih =>
      simp only [collapseNLGo, if_neg hc]
      exact hasNL3_cons_false_intro c _ (fun hcon => hc hcon.1) ih
  | case4 c₁ c₂ c₃ t₂ hc ih =>
      simp only [collapseNLGo, if_pos hc]
      have hY : ∀ d, (collapseNLGo t₂ true).head? = some d → d ≠ '\n' :=
        fun d hd => collapseNLGo_true_head t₂ d hd
      apply hasNL3_cons_false_intro
      · rintro ⟨-, -, htl⟩
        simp only [List.tail_cons] at htl
        exact hY '\n' htl rfl
      · apply hasNL3_cons_false_intro
        · rintro ⟨-, hh, -⟩
          exact hY '\n' hh rfl
        · exact ih
  | case5 c₁ c₂ c₃ t₂ hc ih =>
      simp only [collapseNLGo, if_neg hc]
      apply hasNL3_cons_false_intro
      · rintro ⟨h1, hh, htl⟩
        rw [collapseNLGo_false_head, List.head?_cons, Option.some.injEq] at hh
        -- c₁ and c₂ are newlines, so by the guard c₃ is not
        have hc₃ : c₃ ≠ '\n' := fun hx => hc ⟨h1, hh, hx⟩
        -- compute the second character of the rewritten tail: it is c₃
        cases t₂ with
        | nil =>
            simp [collapseNLGo] at htl
            exact hc₃ htl
        | cons d t₃ =>
            have hnt : ¬(c₂ = '\n' ∧ c₃ = '\n' ∧ d = '\n') :=
              fun hx => hc₃ hx.2.1
            simp only [collapseNLGo, if_neg hnt, List.tail_cons] at htl
            rw [collapseNLGo_false_head, List.head?_cons,
              Option.some.injEq] at htl
            exact hc₃ htl
      · exact ih
  | case6 l hne h3 =>
      match l with
      | [] => exact absurd rfl (hne)
      | [c] => simp [collapseNLGo, hasNL3]
      | [c, d] => simp [collapseNLGo, hasNL3]
      | c₁ :: c₂ :: c₃ :: t => exact absurd rfl (h3 c₁ c₂ c₃ t)

/-- The newline-collapsing pass creates no `\r\n` window. -/
theorem collapseNLGo_no_crlf (l : List Char) (skip : Bool)
    (h : hasCRLF l = false) : hasCRLF (collapseNLGo l skip) = false := by
  induction l, skip using collapseNLGo.induct with
  | case1 b => cases b <;> rfl
  | case2 t ih =>
      simp only [collapseNLGo, if_pos rfl]
      exact ih (hasCRLF_tail _ _ h)
  | case3 c t hc ih =>
      simp only [collapseNLGo, if_neg hc]
      apply hasCRLF_cons_false_intro
      · rintro ⟨h1, hh⟩
        rw [collapseNLGo_false_head] at hh
        have := (hasCRLF_cons c t).mpr (Or.inl ⟨h1, hh⟩)
        rw [h] at this
        exact Bool.noConfusion this
      · exact ih (hasCRLF_tail _ _ h)
  | case4 c₁ c₂ c₃ t₂ hc ih =>
      simp only [collapseNLGo, if_pos hc]
      have hrec : hasCRLF (collapseNLGo t₂ true) = false :=
        ih (hasCRLF_tail _ _ (hasCRLF_tail _ _ (hasCRLF_tail _ _ h)))
      apply hasCRLF_cons_false_intro
      · rintro ⟨h1, -⟩
        exact absurd h1 (by decide)
      · apply hasCRLF_cons_false_intro
        · rintro ⟨h1, -⟩
          exact absurd h1 (by decide)
        · exact hrec
  | case5 c₁ c₂ c₃ t₂ hc ih =>
      simp only [collapseNLGo, if_neg hc]
      apply hasCRLF_cons_false_intro
      · rintro ⟨h1, hh⟩
        rw [collapseNLGo_false_head, List.head?_cons, Option.some.injEq] at hh
        have := (hasCRLF_cons c₁ (c₂ :: c₃ :: t₂)).mpr
          (Or.inl ⟨h1, by rw [List.head?_cons, hh]⟩)
        rw [h] at this
        exact Bool.noConfusion this
      · exact ih (hasCRLF_tail _ _ h)
  | case6 l hne h3 =>
      match l with
      | [] => simpa [collapseNLGo] using h
      | [c] => simpa [collapseNLGo] using h
      | [c, d] => simpa [collapseNLGo] using h
      | c₁ :: c₂ :: c₃ :: t => exact absurd rfl (h3 c₁ c₂ c₃ t)

/-- On inputs without three consecutive newlines, the newline-collapsing
replacement is the identity. -/
theorem collapseNLGo_id (l : List Char) (skip : Bool) (hs : skip = false)
    (h : hasNL3 l = false) : collapseNLGo l skip = l := by
  induction l, skip using collapseNLGo.induct with
  | case1 b => cases b <;> rfl
  | case2 t ih => exact Bool.noConfusion hs
  | case3 c t hc ih => exact Bool.noConfusion hs
  | case4 c₁ c₂ c₃ t₂ hc ih =>
      exfalso
      rw [hasNL3, if_pos hc] at h
      exact Bool.noConfusion h
  | case5 c₁ c₂ c₃ t₂ hc ih =>
      simp only [collapseNLGo, if_neg hc]
      rw [ih rfl (hasNL3_tail _ _ h)]
  | case6 l hne h3 =>
      match l with
      | [] => rfl
      | [c] => simp [collapseNLGo]
      | [c, d] => simp [collapseNLGo]
      | c₁ :: c₂ :: c₃ :: t => exact absurd rfl (h3 c₁ c₂ c₃ t)

theorem collapseSpacesGo_false_head (l : List Char) (c : Char)
    (h : (collapseSpacesGo l false).head? = some c) (hc : isSpTab c = false) :
    l.head? = some c := by
  cases l with
  | nil => simp [collapseSpacesGo] at h
  | cons a t =>
      by_cases ha : isSpTab a = true
      · rw [collapseSpacesGo, if_pos ha, if_neg (by simp)] at h
        simp only [List.head?_cons, Option.some.injEq] at h
        rw [← h] at hc
        simp [isSpTab] at hc
      · rw [collapseSpacesGo, if_neg ha] at h
        simpa using h

theorem collapseSpacesGo_true_head (l : List Char) (c : Char)
    (h : (collapseSpacesGo l true).head? = some c) : isSpTab c = false := by
  induction l with
  | nil => simp [collapseSpacesGo] at h
  | cons a t ih =>
      by_cases ha : isSpTab a = true
      · rw [collapseSpacesGo, if_pos ha, if_pos rfl] at h
        exact ih h
      · rw [collapseSpacesGo, if_neg ha] at h
        simp only [List.head?_cons, Option.some.injEq] at h
        rw [← h]
        simpa using ha

/-- The space-collapsing pass leaves no tab. -/
theorem collapseSpacesGo_no_tab (l : List Char) (inRun : Bool) :
    '\t' ∉ collapseSpacesGo l inRun := by
  induction l generalizing inRun with
  | nil => simp [collapseSpacesGo]
  | cons a t ih =>
      by_cases ha : isSpTab a = true
      · cases inRun with
        | true =>
            rw [collapseSpacesGo, if_pos ha, if_pos rfl]
            exact ih true
        | false =>
            rw [collapseSpacesGo, if_pos ha, if_neg (by simp)]
            intro hmem
            rcases List.mem_cons.mp hmem with heq | hmem2
            · exact absurd heq (by decide)
            · exact ih true hmem2
      · rw [collapseSpacesGo, if_neg ha]
        intro hmem
        rcases List.mem_cons.mp hmem with heq | hmem2
        · rw [← heq] at ha
          exact ha (by decide)
        · exact ih false hmem2

/-- The space-collapsing pass leaves no two adjacent spaces or tabs. -/
theorem collapseSpacesGo_no_dbl (l : List Char) (inRun : Bool) :
    hasDblSpTab (collapseSpacesGo l inRun) = false := by
  induction l generalizing inRun with
  | nil => cases inRun <;> rfl
  | cons a t ih =>
      by_cases ha : isSpTab a = true
      · cases inRun with
        | true =>
            rw [collapseSpacesGo, if_pos ha, if_pos rfl]
            exact ih true
        | false =>
            rw [collapseSpacesGo, if_pos ha, if_neg (by simp)]
            apply hasDblSpTab_cons_false_intro
            · intro _ d hd
              exact collapseSpacesGo_true_head t d hd
            · exact ih true
      · rw [collapseSpacesGo, if_neg ha]
        apply hasDblSpTab_cons_false_intro
        · intro hsp
          exact absurd hsp ha
        · exact ih false

/-- The space-collapsing pass creates no `\r\n` window. -/
theorem collapseSpacesGo_no_crlf (l : List Char) (inRun : Bool)
    (h : hasCRLF l = false) : hasCRLF (collapseSpacesGo l inRun) = false := by
  induction l generalizing inRun with
  | nil => cases inRun <;> rfl
  | cons a t ih =>
      have htail := hasCRLF_tail a t h
      by_cases ha : isSpTab a = true
      · cases inRun with
        | true =>
            rw [collapseSpacesGo, if_pos ha, if_pos rfl]
            exact ih true htail
        | false =>
            rw [collapseSpacesGo, if_pos ha, if_neg (by simp)]
            apply hasCRLF_cons_false_intro
            · rintro ⟨h1, -⟩
              exact absurd h1 (by decide)
            · exact ih true htail
      · rw [collapseSpacesGo, if_neg ha]
        apply hasCRLF_cons_false_intro
        · rintro ⟨h1, hh⟩
          have hth : t.head? = some '\n' :=
            collapseSpacesGo_false_head t '\n' hh (by rfl)
          have := (hasCRLF_cons a t).mpr (Or.inl ⟨h1, hth⟩)
          rw [h] at this
          exact Bool.noConfusion this
        · exact ih false htail

/-- The space-collapsing pass creates no triple-newline window. -/
theorem collapseSpacesGo_no_nl3 (l : List Char) (inRun : Bool)
    (h : hasNL3 l = false) : hasNL3 (collapseSpacesGo l inRun) = false := by
  induction l generalizing inRun with
  | nil => cases inRun <;> rfl
  | cons a t ih =>
      have htail := hasNL3_tail a t h
      by_cases ha : isSpTab a = true
      · cases inRun with
        | true =>
            rw [collapseSpacesGo, if_pos ha, if_pos rfl]
            exact ih true htail
        | false =>
            rw [collapseSpacesGo, if_pos ha, if_neg (by simp)]
            apply hasNL3_cons_false_intro
            · rintro ⟨h1, -, -⟩
              exact absurd h1 (by decide)
            · exact ih true htail
      · rw [collapseSpacesGo, if_neg ha]
        apply hasNL3_cons_false_intro
        · rintro ⟨h1, hh, htl⟩
          have hth : t.head? = some '\n' :=
            collapseSpacesGo_false_head t '\n' hh (by rfl)
          -- the input tail starts with a newline; expose the next character
          cases t with
          | nil => simp at hth
          | cons b t₂ =>
              simp only [List.head?_cons, Option.some.injEq] at hth
              rw [collapseSpacesGo, if_neg (show ¬ isSpTab b = true by
                rw [hth]; decide), List.tail_cons] at htl
              have ht₂h : t₂.head? = some '\n' :=
                collapseSpacesGo_false_head t₂ '\n' htl (by rfl)
              have : hasNL3 (a :: b :: t₂) = true := by
                rw [hasNL3_cons_iff]
                exact Or.inl ⟨h1, by simp [hth], by simpa using ht₂h⟩
              rw [h] at this
              exact Bool.noConfusion this
        · exact ih false htail

/-- On inputs with no tab and no two adjacent spaces, the space-collapsing
replacement is the identity. -/
theorem collapseSpacesGo_id (l : List Char) (htab : '\t' ∉ l)
    (hdbl : hasDblSpTab l = false) : collapseSpacesGo l false = l := by
  induction l with
  | nil => rfl
  | cons a t ih =>
      have htabt : '\t' ∉ t := fun hmem => htab (List.mem_cons_of_mem a hmem)
      have hdblt := hasDblSpTab_tail a t hdbl
      by_cases ha : isSpTab a = true
      · -- a is a space (not a tab), and the next character is not a space
        have haSp : a = ' ' := by
          have : a = ' ' ∨ a = '\t' := by
            simpa [isSpTab] using ha
          rcases this with h' | h'
          · exact h'
          · exact absurd (h' ▸ List.mem_cons_self a t) htab
        rw [collapseSpacesGo, if_pos ha, if_neg (by simp)]
        rw [haSp]
        -- the run stops immediately: the head of t is not a space or tab
        cases t with
        | nil => rfl
        | cons b t₂ =>
            have hb : isSpTab b = false := by
              by_contra hb'
              rw [Bool.not_eq_false] at hb'
              have := (hasDblSpTab_cons a (b :: t₂)).mpr
                (Or.inl ⟨ha, b, rfl, hb'⟩)
              rw [hdbl] at this
              exact Bool.noConfusion this
            have hfull : collapseSpacesGo (b :: t₂) false = b :: t₂ :=
              ih htabt hdblt
            rw [collapseSpacesGo, if_neg (show ¬ isSpTab b = true by
              rw [hb]; decide)] at hfull ⊢
            rw [hfull]
      · rw [collapseSpacesGo, if_neg ha]
        rw [ih htabt hdblt]

theorem trimRight_shape (l : List Char) :
    trimRight l = [] ∨
      ∃ c t, l = c :: t ∧ trimRight l = c :: trimRight t := by
  cases l with
  | nil => exact Or.inl rfl
  | cons c t =>
      by_cases h : trimRight t = [] ∧ isWS c = true
      · exact Or.inl (by rw [trimRight, if_pos h])
      · exact Or.inr ⟨c, t, rfl, by rw [trimRight, if_neg h]⟩

theorem trimRight_head (l : List Char) (c : Char)
    (h : (trimRight l).head? = some c) : l.head? = some c := by
  rcases trimRight_shape l with hnil | ⟨d, t, hl, hcons⟩
  · rw [hnil] at h
    exact Option.noConfusion h
  · rw [hcons] at h
    simp only [List.head?_cons, Option.some.injEq] at h
    rw [hl, ← h]
    rfl

theorem trimRight_subset (l : List Char) (c : Char)
    (h : c ∈ trimRight l) : c ∈ l := by
  induction l with
  | nil => rw [trimRight] at h; exact absurd h (List.not_mem_nil c)
  | cons a t ih =>
      by_cases hcond : trimRight t = [] ∧ isWS a = true
      · rw [trimRight, if_pos hcond] at h
        exact absurd h (List.not_mem_nil c)
      · rw [trimRight, if_neg hcond] at h
        rcases List.mem_cons.mp h with heq | hm
        · rw [heq]; exact List.mem_cons_self a t
        · exact List.mem_cons_of_mem a (ih hm)

theorem hasCRLF_trimRight (l : List Char) (h : hasCRLF l = false) :
    hasCRLF (trimRight l) = false := by
  induction l with
  | nil => rfl
  | cons a t ih =>
      by_cases hcond : trimRight t = [] ∧ isWS a = true
      · rw [trimRight, if_pos hcond]; rfl
      · rw [trimRight, if_neg hcond]
        apply hasCRLF_cons_false_intro
        · rintro ⟨h1, hh⟩
          have := (hasCRLF_cons a t).mpr (Or.inl ⟨h1, trimRight_head t '\n' hh⟩)
          rw [h] at this
          exact Bool.noConfusion this
        · exact ih (hasCRLF_tail a t h)

theorem hasNL3_trimRight (l : List Char) (h : hasNL3 l = false) :
    hasNL3 (trimRight l) = false := by
  induction l with
  | nil => rfl
  | cons a t ih =>
      by_cases hcond : trimRight t = [] ∧ isWS a = true
      · rw [trimRight, if_pos hcond]; rfl
      · rw [trimRight, if_neg hcond]
        apply hasNL3_cons_false_intro
        · rintro ⟨h1, hh, htl⟩
          -- the first window character of trimRight t comes from t, and so
          -- does the second
          rcases trimRight_shape t with hnil | ⟨d, t₂, ht, hcons⟩
          · rw [hnil] at hh
            exact Option.noConfusion hh
          · rw [hcons] at hh htl
            simp only [List.head?_cons, Option.some.injEq, List.tail_cons] at hh htl
            have h2 := trimRight_head t₂ '\n' htl
            have : hasNL3 (a :: t) = true := by
              rw [ht, hasNL3_cons_iff]
              exact Or.inl ⟨h1, by simp [hh], by simpa using h2⟩
            rw [h] at this
            exact Bool.noConfusion this
        · exact ih (hasNL3_tail a t h)

theorem hasDblSpTab_trimRight (l : List Char) (h : hasDblSpTab l = false) :
    hasDblSpTab (trimRight l) = false := by
  induction l with
  | nil => rfl
  | cons a t ih =>
      by_cases hcond : trimRight t = [] ∧ isWS a = true
      · rw [trimRight, if_pos hcond]; rfl
      · rw [trimRight, if_neg hcond]
        apply hasDblSpTab_cons_false_intro
        · intro ha d hd
          by_contra hdc
          rw [Bool.not_eq_false] at hdc
          have := (hasDblSpTab_cons a t).mpr
            (Or.inl ⟨ha, d, trimRight_head t d hd, hdc⟩)
          rw [h] at this
          exact Bool.noConfusion this
        · exact ih (hasDblSpTab_tail a t h)

theorem hasCRLF_dropWhile (l : List Char) (p : Char → Bool)
    (h : hasCRLF l = false) : hasCRLF (l.dropWhile p) = false := by
  induction l with
  | nil => rfl
  | cons a t ih =>
      rw [List.dropWhile_cons]
      by_cases hp : p a = true
      · rw [if_pos hp]
        exact ih (hasCRLF_tail a t h)
      · rw [if_neg hp]
        exact h

theorem hasNL3_dropWhile (l : List Char) (p : Char → Bool)
    (h : hasNL3 l = false) : hasNL3 (l.dropWhile p) = false := by
  induction l with
  | nil => rfl
  | cons a t ih =>
      rw [List.dropWhile_cons]
      by_cases hp : p a = true
      · rw [if_pos hp]
        exact ih (hasNL3_tail a t h)
      · rw [if_neg hp]
        exact h

theorem hasDblSpTab_dropWhile (l : List Char) (p : Char → Bool)
    (h : hasDblSpTab l = false) : hasDblSpTab (l.dropWhile p) = false := by
  induction l with
  | nil => rfl
  | cons a t ih =>
      rw [List.dropWhile_cons]
      by_cases hp : p a = true
      · rw [if_pos hp]
        exact ih (hasDblSpTab_tail a t h)
      · rw [if_neg hp]
        exact h

theorem mem_dropWhile (l : List Char) (p : Char → Bool) (c : Char)
    (h : c ∈ l.dropWhile p) : c ∈ l := by
  induction l with
  | nil => rw [List.dropWhile_nil] at h; exact absurd h (List.not_mem_nil c)
  | cons a t ih =>
      rw [List.dropWhile_cons] at h
      by_cases hp : p a = true
      · rw [if_pos hp] at h
        exact List.mem_cons_of_mem a (ih h)
      · rw [if_neg hp] at h
        exact h

theorem trimLeft_head_not_ws (l : List Char) (c : Char)
    (h : (trimLeft l).head? = some c) : isWS c = false := by
  induction l with
  | nil => rw [trimLeft] at h; exact Option.noConfusion h
  | cons a t ih =>
      rw [trimLeft, List.dropWhile_cons] at h
      by_cases hw : isWS a = true
      · rw [if_pos hw] at h
        exact ih (by rw [trimLeft]; exact h)
      · rw [if_neg hw] at h
        simp only [List.head?_cons, Option.some.injEq] at h
        rw [← h]
        simpa using hw

theorem trimRight_getLast_not_ws (l : List Char) (c : Char)
    (h : (trimRight l).getLast? = some c) : isWS c = false := by
  induction l with
  | nil => rw [trimRight] at h; exact Option.noConfusion h
  | cons a t ih =>
      by_cases hcond : trimRight t = [] ∧ isWS a = true
      · rw [trimRight, if_pos hcond] at h
        exact Option.noConfusion h
      · rw [trimRight, if_neg hcond] at h
        cases hsh : trimRight t with
        | nil =>
            rw [hsh, List.getLast?_singleton] at h
            have ha : isWS a = false := by
              by_contra hx
              rw [Bool.not_eq_false] at hx
              exact hcond ⟨hsh, hx⟩
            simp only [Option.some.injEq] at h
            rw [← h]
            exact ha
        | cons x xs =>
            rw [hsh, List.getLast?_cons_cons] at h
            exact ih (by rw [hsh]; exact h)

theorem trimLeft_id (l : List Char)
    (h : ∀ c, l.head? = some c → isWS c = false) : trimLeft l = l := by
  cases l with
  | nil => rfl
  | cons a t =>
      rw [trimLeft, List.dropWhile_cons, if_neg (by simp [h a rfl])]

theorem trimRight_id (l : List Char)
    (h : ∀ c, l.getLast? = some c → isWS c = false) : trimRight l = l := by
  induction l with
  | nil => rfl
  | cons a t ih =>
      cases t with
      | nil =>
          rw [trimRight, if_neg]
          · rfl
          · rintro ⟨-, hws⟩
            rw [h a (by rw [List.getLast?_singleton])] at hws
            exact Bool.noConfusion hws
      | cons b t₂ =>
          have hrec : trimRight (b :: t₂) = b :: t₂ :=
            ih (fun c hc => h c (by rw [List.getLast?_cons_cons]; exact hc))
          rw [trimRight, if_neg]
          · rw [hrec]
          · rintro ⟨hnil, -⟩
            rw [hrec] at hnil
            exact List.noConfusion hnil

theorem trim_id (l : List Char)
    (hh : ∀ c, l.head? = some c → isWS c = false)
    (hl : ∀ c, l.getLast? = some c → isWS c = false) : trim l = l := by
  rw [trim, trimLeft_id l hh, trimRight_id l hl]

/-- All the normal-form facts about `cleanText`'s output, provided the input
has no `\r\r\n` window. -/
theorem cleanText_clean (x : List Char) (h : hasCRCRLF x = false) :
    hasCRLF (cleanText x) = false ∧ hasNL3 (cleanText x) = false ∧
    '\t' ∉ cleanText x ∧ hasDblSpTab (cleanText x) = false ∧
    (∀ c, (cleanText x).head? = some c → isWS c = false) ∧
    (∀ c, (cleanText x).getLast? = some c → isWS c = false) := by
  have h1 : hasCRLF (replaceCRLF x) = false := replaceCRLF_no_crlf x h
  have h2 : hasCRLF (collapseNL (replaceCRLF x)) = false :=
    collapseNLGo_no_crlf _ false h1
  have h3 : hasNL3 (collapseNL (replaceCRLF x)) = false :=
    collapseNLGo_no_nl3 _ false
  have h4 : hasCRLF (collapseSpaces (collapseNL (replaceCRLF x))) = false :=
    collapseSpacesGo_no_crlf _ false h2
  have h5 : hasNL3 (collapseSpaces (collapseNL (replaceCRLF x))) = false :=
    collapseSpacesGo_no_nl3 _ false h3
  have h6 : '\t' ∉ collapseSpaces (collapseNL (replaceCRLF x)) :=
    collapseSpacesGo_no_tab _ false
  have h7 : hasDblSpTab (collapseSpaces (collapseNL (replaceCRLF x))) = false :=
    collapseSpacesGo_no_dbl _ false
  refine ⟨?_, ?_, ?_, ?_, ?_, ?_⟩
  · exact hasCRLF_trimRight _ (hasCRLF_dropWhile _ _ h4)
  · exact hasNL3_trimRight _ (hasNL3_dropWhile _ _ h5)
  · intro hmem
    exact h6 (mem_dropWhile _ _ _ (trimRight_subset _ _ hmem))
  · exact hasDblSpTab_trimRight _ (hasDblSpTab_dropWhile _ _ h7)
  · intro c hc
    exact trimLeft_head_not_ws _ c (trimRight_head _ c hc)
  · intro c hc
    exact trimRight_getLast_not_ws _ c hc

/-- Claim C6, counterexample: `cleanText` is NOT idempotent.  On the input
`a\r\r\nb`, the single left-to-right `\r\n`-replacement pass produces
`a\r\nb` - which contains a fresh `\r\n` window - so a second application
changes the text again. -/
theorem claim6_clean_text_counterexample :
    cleanText ['a', '\r', '\r', '\n', 'b'] = ['a', '\r', '\n', 'b'] ∧
    cleanText (cleanText ['a', '\r', '\r', '\n', 'b']) = ['a', '\n', 'b'] ∧
    cleanText (cleanText ['a', '\r', '\r', '\n', 'b']) ≠
      cleanText ['a', '\r', '\r', '\n', 'b'] := by
  refine ⟨by decide, by decide, by decide⟩

/-- Claim C6 (amended): `cleanText` is idempotent on every input that does
not contain the three-character window `\r\r\n` (the only pattern on which
the single `/\r\n/g` pass leaves a fresh `\r\n` behind):
`cleanText (cleanText x) = cleanText x` for all such `x`. -/
theorem claim6_clean_text (x : List Char) (h : hasCRCRLF x = false) :
    cleanText (cleanText x) = cleanText x := by
  obtain ⟨h1, h2, h3, h4, h5, h6⟩ := cleanText_clean x h
  conv_lhs => rw [cleanText]
  rw [replaceCRLF_id _ h1]
  rw [show collapseNL (cleanText x) = cleanText x from
    collapseNLGo_id _ false rfl h2]
  rw [show collapseSpaces (cleanText x) = cleanText x from
    collapseSpacesGo_id _ h3 h4]
  exact trim_id _ h5 h6

/-- Witness for claim C6 on the input `a\r\nb` (no `\r\r\n` window). -/
theorem claim6_clean_text_witness :
    hasCRCRLF ['a', '\r', '\n', 'b'] = false ∧
    cleanText (cleanText ['a', '\r', '\n', 'b']) =
      cleanText ['a', '\r', '\n', 'b'] := by
  exact ⟨by decide, claim6_clean_text ['a', '\r', '\n', 'b'] (by decide)⟩

-- --- C7: word and sentence count aggregation ---

theorem wordsGo_all_ws (s : List Char) (w : List Char)
    (hs : ∀ c ∈ s, isWS c = true) :
    wordsGo s w = if w = [] then [] else [w.reverse] := by
  induction s generalizing w with
  | nil => rfl
  | cons a t ih =>
      have ha : isWS a = true := hs a (List.mem_cons_self a t)
      rw [wordsGo, if_pos ha]
      by_cases hw : w = []
      · rw [if_pos hw, if_pos hw]
        rw [ih [] (fun c hc => hs c (List.mem_cons_of_mem a hc))]
        rfl
      · rw [if_neg hw, if_neg hw]
        rw [ih [] (fun c hc => hs c (List.mem_cons_of_mem a hc))]
        rfl

theorem words_all_ws (s : List Char) (hs : ∀ c ∈ s, isWS c = true) :
    words s = [] := by
  rw [words, wordsGo_all_ws s [] hs]
  rfl

theorem wordsGo_append_ws (a : List Char) (w b : List Char)
    (hb : ∃ c t, b = c :: t ∧ isWS c = true) :
    wordsGo (a ++ b) w = wordsGo a w ++ words b := by
  induction a generalizing w with
  | nil =>
      obtain ⟨c, t, rfl, hcws⟩ := hb
      by_cases hw : w = []
      · subst hw
        simp [words, wordsGo, hcws]
      · simp [words, wordsGo, hcws, hw]
  | cons x a' ih =>
      rw [List.cons_append, wordsGo, wordsGo]
      by_cases hx : isWS x = true
      · rw [if_pos hx, if_pos hx]
        by_cases hw : w = []
        · rw [if_pos hw, if_pos hw]
          exact ih []
        · rw [if_neg hw, if_neg hw, ih []]
          rfl
      · rw [if_neg hx, if_neg hx]
        exact ih (x :: w)

theorem wordsGo_append_all_ws (a : List Char) (w : List Char) (s : List Char)
    (hs : ∀ c ∈ s, isWS c = true) :
    wordsGo (a ++ s) w = wordsGo a w := by
  induction a generalizing w with
  | nil =>
      rw [List.nil_append, wordsGo_all_ws s w hs]
      rfl
  | cons x a' ih =>
      rw [List.cons_append, wordsGo, wordsGo]
      by_cases hx : isWS x = true
      · rw [if_pos hx, if_pos hx]
        by_cases hw : w = []
        · rw [if_pos hw, if_pos hw]
          exact ih []
        · rw [if_neg hw, if_neg hw, ih []]
      · rw [if_neg hx, if_neg hx]
        exact ih (x :: w)

theorem words_ws_start (s b : List Char) (hs : ∀ c ∈ s, isWS c = true) :
    words (s ++ b) = words b := by
  induction s with
  | nil => rfl
  | cons c t ih =>
      rw [List.cons_append, words, wordsGo,
        if_pos (hs c (List.mem_cons_self c t)), if_pos rfl]
      exact ih (fun d hd => hs d (List.mem_cons_of_mem c hd))

theorem countWords_ws_start (s b : List Char)
    (hs : ∀ c ∈ s, isWS c = true) :
    countWords (s ++ b) = countWords b := by
  rw [countWords, countWords, words_ws_start s b hs]

theorem countWords_append_sep (a s b : List Char) (hs1 : s ≠ [])
    (hs2 : ∀ c ∈ s, isWS c = true) :
    countWords (a ++ (s ++ b)) = countWords a + countWords b := by
  have hsep : words (a ++ (s ++ b)) = words a ++ words b := by
    obtain ⟨c, t, rfl⟩ : ∃ c t, s = c :: t := by
      cases s with
      | nil => exact absurd rfl hs1
      | cons c t => exact ⟨c, t, rfl⟩
    rw [words, wordsGo_append_ws a [] ((c :: t) ++ b)
      ⟨c, t ++ b, by rw [List.cons_append], hs2 c (List.mem_cons_self c t)⟩]
    rw [words_ws_start (c :: t) b hs2]
    rfl
  rw [countWords, hsep, List.filter_append, List.length_append]
  rfl

theorem trimRight_eq_nil_all_ws (l : List Char) (h : trimRight l = []) :
    ∀ c ∈ l, isWS c = true := by
  induction l with
  | nil => intro c hc; exact absurd hc (List.not_mem_nil c)
  | cons a t ih =>
      by_cases hcond : trimRight t = [] ∧ isWS a = true
      · intro c hc
        rcases List.mem_cons.mp hc with rfl | hm
        · exact hcond.2
        · exact ih hcond.1 c hm
      · rw [trimRight, if_neg hcond] at h
        exact absurd h (List.cons_ne_nil a (trimRight t))

theorem trimRight_decomp (l : List Char) :
    ∃ s, l = trimRight l ++ s ∧ ∀ c ∈ s, isWS c = true := by
  induction l with
  | nil => exact ⟨[], rfl, fun c hc => absurd hc (List.not_mem_nil c)⟩
  | cons a t ih =>
      by_cases hcond : trimRight t = [] ∧ isWS a = true
      · refine ⟨a :: t, ?_, ?_⟩
        · rw [trimRight, if_pos hcond, List.nil_append]
        · intro c hc
          rcases List.mem_cons.mp hc with rfl | hm
          · exact hcond.2
          · exact trimRight_eq_nil_all_ws t hcond.1 c hm
      · obtain ⟨s, hts, hws⟩ := ih
        refine ⟨s, ?_, hws⟩
        rw [trimRight, if_neg hcond, List.cons_append, ← hts]

theorem words_trimLeft (l : List Char) : words (trimLeft l) = words l := by
  induction l with
  | nil => rfl
  | cons a t ih =>
      rw [trimLeft, List.dropWhile_cons]
      by_cases ha : isWS a = true
      · rw [if_pos ha]
        have hr : words (a :: t) = words t := by simp [words, wordsGo, ha]
        rw [hr]
        exact ih
      · rw [if_neg ha]

theorem words_trim (l : List Char) : words (trim l) = words l := by
  rw [trim]
  obtain ⟨s, hdecomp, hws⟩ := trimRight_decomp (trimLeft l)
  have h1 : words (trimLeft l) = words (trimRight (trimLeft l)) := by
    conv_lhs => rw [hdecomp]
    rw [words, wordsGo_append_all_ws _ [] s hws]
    rfl
  rw [← h1, words_trimLeft]

theorem countWords_trim (l : List Char) : countWords (trim l) = countWords l := by
  rw [countWords, countWords, words_trim]

/-- The core aggregation invariant of the paragraph splitter: the word counts
of the trimmed pieces sum to the word count of the whole remaining text
(`acc`/`buf` hold the scan state; in separator modes they are all
whitespace). -/
theorem splitParasGo_sum (l : List Char) : ∀ (acc buf : List Char) (mode : ℕ),
    (mode ≠ 1 → buf = []) → (∀ c ∈ buf, isWS c = true) →
    (mode ≠ 0 → mode ≠ 1 → ∀ c ∈ acc, isWS c = true) →
    ((splitParasGo l acc buf mode).map (fun p => countWords (trim p))).sum =
      countWords (acc.reverse ++ (buf.reverse ++ l)) := by
  induction l with
  | nil =>
      intro acc buf mode h1 h2 h3
      by_cases hm : mode = 1
      · rw [splitParasGo, if_pos hm]
        rw [List.map_cons, List.map_nil, List.sum_cons, List.sum_nil,
          Nat.add_zero]
        rw [countWords_trim, List.reverse_append, List.append_nil]
      · rw [splitParasGo, if_neg hm, h1 hm]
        rw [List.map_cons, List.map_nil, List.sum_cons, List.sum_nil,
          Nat.add_zero]
        rw [countWords_trim]
        simp
  | cons c t ih =>
      intro acc buf mode h1 h2 h3
      by_cases hm0 : mode = 0
      · rw [splitParasGo, if_pos hm0, h1 (by omega)]
        by_cases hc : c = '\n'
        · rw [if_pos hc]
          rw [ih acc ['\n'] 1 (fun hy => absurd rfl hy)
            (fun d hd => by simp at hd; subst hd; decide)
            (fun _ hy => absurd rfl hy)]
          rw [hc]
          simp
        · rw [if_neg hc]
          rw [ih (c :: acc) [] 0 (fun _ => rfl)
            (fun d hd => absurd hd (List.not_mem_nil d))
            (fun hx _ => absurd rfl hx)]
          rw [List.reverse_cons]
          simp
      · by_cases hm1 : mode = 1
        · rw [splitParasGo, if_neg hm0, if_pos hm1]
          by_cases hc : c = '\n'
          · rw [if_pos hc]
            rw [List.map_cons, List.sum_cons]
            rw [ih [] [] 2 (fun _ => rfl)
              (fun d hd => absurd hd (List.not_mem_nil d))
              (fun _ _ d hd => absurd hd (List.not_mem_nil d))]
            rw [countWords_trim]
            have hsplit : buf.reverse ++ c :: t = (buf.reverse ++ [c]) ++ t := by
              rw [List.append_assoc]
              rfl
            rw [hsplit, countWords_append_sep acc.reverse (buf.reverse ++ [c]) t
              (by simp) (by
                intro d hd
                rcases List.mem_append.mp hd with hdm | hdm
                · exact h2 d (List.mem_reverse.mp hdm)
                · simp at hdm
                  rw [hdm, hc]
                  rfl)]
            rw [List.reverse_nil, List.nil_append, List.nil_append]
          · rw [if_neg hc]
            by_cases hw : isWS c = true
            · rw [if_pos hw]
              rw [ih acc (c :: buf) 1 (fun hy => absurd rfl hy) (by
                intro d hd
                rcases List.mem_cons.mp hd with rfl | hdm
                · exact hw
                · exact h2 d hdm) (fun _ hy => absurd rfl hy)]
              rw [List.reverse_cons]
              rw [List.append_assoc]
              rfl
            · rw [if_neg hw]
              rw [ih (c :: (buf ++ acc)) [] 0 (fun _ => rfl)
                (fun d hd => absurd hd (List.not_mem_nil d))
                (fun hx _ => absurd rfl hx)]
              rw [List.reverse_cons, List.reverse_append]
              rw [List.reverse_nil, List.nil_append]
              rw [List.append_assoc, List.append_assoc]
              rfl
        · rw [splitParasGo, if_neg hm0, if_neg hm1, h1 hm1]
          have hacc : ∀ c ∈ acc, isWS c = true := h3 hm0 hm1
          by_cases hc : c = '\n'
          · rw [if_pos hc]
            rw [ih [] [] 2 (fun _ => rfl)
              (fun d hd => absurd hd (List.not_mem_nil d))
              (fun _ _ d hd => absurd hd (List.not_mem_nil d))]
            rw [List.reverse_nil, List.nil_append, List.nil_append]
            have hsplit : acc.reverse ++ ([] ++ c :: t) =
                (acc.reverse ++ [c]) ++ t := by
              rw [List.nil_append, List.append_assoc]
              rfl
            rw [hsplit, countWords_ws_start (acc.reverse ++ [c]) t (by
              intro d hd
              rcases List.mem_append.mp hd with hdm | hdm
              · exact hacc d (List.mem_reverse.mp hdm)
              · simp at hdm
                rw [hdm, hc]
                rfl)]
          · rw [if_neg hc]
            by_cases hw : isWS c = true
            · rw [if_pos hw]
              rw [ih (c :: acc) [] 2 (fun _ => rfl)
                (fun d hd => absurd hd (List.not_mem_nil d)) (by
                  intro _ _ d hd
                  rcases List.mem_cons.mp hd with rfl | hdm
                  · exact hw
                  · exact hacc d hdm)]
              rw [List.reverse_cons]
              simp
            · rw [if_neg hw]
              rw [ih (c :: acc) [] 0 (fun _ => rfl)
                (fun d hd => absurd hd (List.not_mem_nil d))
                (fun hx _ => absurd rfl hx)]
              rw [List.reverse_cons]
              simp

theorem foldl_count_sentences (ps : List ParsedParagraph) (n : ℕ) :
    ps.foldl (fun count p => count + p.sentences.length) n =
      n + (ps.map (fun p => p.sentences.length)).sum := by
  induction ps generalizing n with
  | nil => simp
  | cons a t ih =>
      rw [List.foldl_cons, ih, List.map_cons, List.sum_cons]
      omega

theorem sum_countWords_filter (l : List (List Char)) :
    ((l.filter (fun p => p ≠ [])).map countWords).sum =
      (l.map countWords).sum := by
  induction l with
  | nil => rfl
  | cons a t ih =>
      rw [List.filter_cons]
      by_cases ha : a = []
      · rw [if_neg (by simp [ha]), ih, List.map_cons, List.sum_cons, ha]
        rw [show countWords ([] : List Char) = 0 from rfl, Nat.zero_add]
      · rw [if_pos (by simp [ha]), List.map_cons, List.sum_cons, ih,
          List.map_cons, List.sum_cons]

theorem wordCount_map_records (l : List (List Char)) :
    ((l.enum.map (fun pr =>
      ({ content := pr.2, order := pr.1 + 1, wordCount := countWords pr.2,
         sentences := splitIntoSentences pr.2 } :
        ParsedParagraph))).map (fun p => p.wordCount)) = l.map countWords := by
  rw [List.map_map]
  have h : ((fun p => p.wordCount) ∘ (fun pr =>
      ({ content := pr.2, order := pr.1 + 1, wordCount := countWords pr.2,
         sentences := splitIntoSentences pr.2 } : ParsedParagraph))) =
      (fun (pr : ℕ × List Char) => countWords pr.2) := rfl
  rw [h]
  have h2 : (fun (pr : ℕ × List Char) => countWords pr.2) =
      (countWords ∘ Prod.snd) := rfl
  rw [h2, ← List.map_map, List.enum_map_snd]

theorem splitIntoParagraphs_wordCount_sum (txt : List Char) :
    ((splitIntoParagraphs txt).map (fun p => p.wordCount)).sum =
      countWords txt := by
  rw [splitIntoParagraphs, wordCount_map_records, sum_countWords_filter,
    List.map_map]
  have h : (countWords ∘ trim) = (fun p => countWords (trim p)) := rfl
  rw [h]
  rw [splitParasGo_sum txt [] [] 0 (fun _ => rfl)
    (fun d hd => absurd hd (List.not_mem_nil d))
    (fun hx _ => absurd rfl hx)]
  rfl

/-- C7: for every input text, the per-paragraph `wordCount` fields of the
parsed document sum to the document's `wordCount` (computed over the whole
cleaned content), and the per-paragraph sentence-list lengths sum to the
document's `sentenceCount`. -/
theorem claim7_count_sums (content : List Char) :
    ((parseDocumentContent content).paragraphs.map
        (fun p => p.wordCount)).sum =
      (parseDocumentContent content).wordCount ∧
    ((parseDocumentContent content).paragraphs.map
        (fun p => p.sentences.length)).sum =
      (parseDocumentContent content).sentenceCount := by
  constructor
  · show ((splitIntoParagraphs (cleanText content)).map
        (fun p => p.wordCount)).sum = countWords (cleanText content)
    exact splitIntoParagraphs_wordCount_sum (cleanText content)
  · show ((splitIntoParagraphs (cleanText content)).map
        (fun p => p.sentences.length)).sum =
      (splitIntoParagraphs (cleanText content)).foldl
        (fun count p => count + p.sentences.length) 0
    rw [foldl_count_sentences, Nat.zero_add]
